import Mathlib

/-!
Verification of the OSD Lyrics resolution and persistence engine
(daemon/lyrics.py and python/utils.py).

Text is modelled as a list of Unicode code points (matching Python 3
strings, whose indices are code points), and byte strings as lists of
naturals.  External collaborators (the chardet detector, the codec
library, the association store, the pattern expander, the configuration
provider and the filesystem) are passed in as explicit parameters, so
every engine operation is a pure function of its inputs.
-/

abbrev Str := List Char

/-- Decidable test that the pattern list is an initial segment of the
second list.  This mirrors the str.startswith checks in the source. -/
def strStarts : Str → Str → Bool
  | [], _ => true
  | _ :: _, [] => false
  | p :: ps, c :: cs => p == c && strStarts ps cs

/-- Characters of the literal offset-tag opening searched for by
update_lrc_offset, regex fragment \[offset: . -/
def offsetLit : Str := "[offset:".toList

/-!
Offset Rewriter (daemon/lyrics.py, update_lrc_offset, lines 243-264).

The source searches content for the regex
  (multiline)  caret (\[[^\]]*\])*? \[offset:(.*?)\]
and either replaces exactly the span of group 2 with str(offset), or,
when there is no match, prepends "[offset:STR]\n".  The regex engine is
embedded faithfully below:

  * payloadScan models the lazy (.*?)\] step: it finds the first ']'
    with no newline before it (a dot does not match newline);
  * splitBracket models one bracketed tag body [^\]]*\]: the first ']'
    terminates the tag, and the body may span newlines;
  * matchStack models the lazy tag run followed by the offset literal,
    anchored at one position: the zero-tag alternative is tried first,
    then one leading tag is consumed and the search resumes, exactly as
    the lazy star backtracks;
  * searchFrom tries successive line-start positions left to right,
    which is what re.search does with a caret under re.MULTILINE.
-/

/-- Lazy scan of the regex fragment (.*?)\] : returns the payload (all
characters before the first ']') and the rest beginning at that ']'.
Fails if a newline or the end of input comes before any ']'. -/
def payloadScan : Str → Option (Str × Str)
  | [] => none
  | c :: cs =>
    if c = ']' then some ([], c :: cs)
    else if c = '\n' then none
    else match payloadScan cs with
      | some (p, r) => some (c :: p, r)
      | none => none

/-- Scan of a bracketed tag body, regex fragment [^\]]*\] applied after
the opening bracket: splits the input at the first ']', returning the
body (which may contain newlines) and the rest after the ']'. -/
def splitBracket : Str → Option (Str × Str)
  | [] => none
  | c :: cs =>
    if c = ']' then some ([], cs)
    else match splitBracket cs with
      | some (m, r) => some (c :: m, r)
      | none => none

/-- Zero-tag alternative of the lazy star: try to match
\[offset:(.*?)\] at the current position.  On success the result is
(consumed text up to group 2, group 2, rest from the closing bracket). -/
def tryOffset (s : Str) : Option (Str × Str × Str) :=
  if strStarts offsetLit s then
    match payloadScan (s.drop 8) with
    | some (p, r) => some (offsetLit, p, r)
    | none => none
  else none

/-- One anchored attempt of (\[[^\]]*\])*?\[offset:(.*?)\] with fuel.
The lazy star tries zero tags first (tryOffset); if that fails it
consumes one bracketed tag and retries.  Each consumed tag removes at
least two characters, so fuel equal to the input length suffices. -/
def matchStackF : Nat → Str → Option (Str × Str × Str)
  | 0, _ => none
  | fuel + 1, s =>
    match tryOffset s with
    | some res => some res
    | none =>
      match s with
      | c :: t =>
        if c = '[' then
          match splitBracket t with
          | some (m, rest) =>
            match matchStackF fuel rest with
            | some (c2, p, r) => some ('[' :: m ++ ']' :: c2, p, r)
            | none => none
          | none => none
        else none
      | [] => none

/-- Anchored attempt of the full tag-stack-then-offset pattern at one
position. -/
def matchStack (s : Str) : Option (Str × Str × Str) :=
  matchStackF (s.length + 1) s

/-- Splits the input at its first newline: the returned line does not
contain the newline, the returned rest starts after it. -/
def splitAtNl : Str → Option (Str × Str)
  | [] => none
  | c :: cs =>
    if c = '\n' then some ([], cs)
    else match splitAtNl cs with
      | some (l, r) => some (c :: l, r)
      | none => none

/-- Search loop of re.search with a multiline caret anchor, with fuel:
attempt the match at the current line start; on failure skip to just
after the next newline and retry.  The result components concatenate
back to the input: (text before group 2, group 2, text from the closing
bracket on). -/
def searchFromF : Nat → Str → Option (Str × Str × Str)
  | 0, _ => none
  | fuel + 1, s =>
    match matchStack s with
    | some res => some res
    | none =>
      match splitAtNl s with
      | some (l, rest) =>
        match searchFromF fuel rest with
        | some (c, p, r) => some (l ++ '\n' :: c, p, r)
        | none => none
      | none => none

/-- Leftmost match of the update_lrc_offset regex over the whole
content. -/
def searchFrom (s : Str) : Option (Str × Str × Str) :=
  searchFromF (s.length + 1) s

/-- Decimal digit character, as produced by Python str() of an int. -/
def digitChar : Nat → Char
  | 0 => '0' | 1 => '1' | 2 => '2' | 3 => '3' | 4 => '4'
  | 5 => '5' | 6 => '6' | 7 => '7' | 8 => '8' | _ => '9'

/-- Decimal digits of a natural number, most significant first, with
fuel (dividing by ten strictly decreases a positive number). -/
def natDigitsF : Nat → Nat → Str
  | 0, _ => []
  | fuel + 1, n =>
    if n < 10 then [digitChar n]
    else natDigitsF fuel (n / 10) ++ [digitChar (n % 10)]

/-- Decimal representation of a natural number. -/
def natStr (n : Nat) : Str := natDigitsF (n + 1) n

/-- Decimal representation of an integer, matching Python str(int). -/
def intStr : Int → Str
  | Int.ofNat n => natStr n
  | Int.negSucc n => '-' :: natStr (n + 1)

/-- Embedding of update_lrc_offset (daemon/lyrics.py lines 243-264):
replace the span of group 2 of the first line-anchored match with
str(offset), or prepend a fresh tag line when there is no match. -/
def update_lrc_offset (content : Str) (offset : Int) : Str :=
  match searchFrom content with
  | none => offsetLit ++ intStr offset ++ ']' :: '\n' :: content
  | some (pre, _, suf) => pre ++ intStr offset ++ suf

/-- Well-formed run of bracketed tags [body]...[body], each body free
of closing brackets, as matched by the regex fragment (\[[^\]]*\])* . -/
inductive Tags : Str → Prop
  | nil : Tags []
  | cons (m t : Str) : ']' ∉ m → Tags t → Tags ('[' :: (m ++ ']' :: t))

/-- Specification-level reading of the tag search of update_lrc_offset:
the content contains, at the start of a line, a run of bracketed tags
immediately followed by an offset tag closed on the same line. -/
def AnchoredOffset (c : Str) : Prop :=
  ∃ a t₀ pay rest, Tags t₀ ∧
    c = a ++ t₀ ++ offsetLit ++ pay ++ ']' :: rest ∧
    (a = [] ∨ ∃ a₀, a = a₀ ++ ['\n']) ∧
    ']' ∉ pay ∧ '\n' ∉ pay

/-!
Python exception taxonomy surfaced by the embedded operations.
invalidUri, cannotLoad and cannotSave are the dedicated exception
classes of daemon/lyrics.py; keyError models the dictionary dispatch
URI_LOAD_HANDLERS[scheme] / URI_SAVE_HANDLERS[scheme] failing on an
unsupported scheme; typeError models a str-plus-None concatenation.
-/

inductive PyExn
  | invalidUri
  | cannotLoad
  | cannotSave
  | keyError
  | typeError
deriving DecidableEq

/-!
Charset Normalizer (daemon/lyrics.py, decode_by_charset, lines 96-133).

The statistical detector (chardet.detect, returning an encoding name or
None) and the codec library (bytes.decode with the replace policy,
total for every codec the detector can name) are external collaborators
and are passed in as functions: detect gives the detected encoding of a
byte string, dec gives the decoded text for an encoding name and a byte
string.
-/

def DETECT_CHARSET_GUESS_MIN_LEN : Nat := 40

def DETECT_CHARSET_GUESS_MAX_LEN : Nat := 100

/-- ASCII lowering of an encoding name, modelling str.lower on the
ASCII-only names chardet produces. -/
def lowerStr (s : Str) : Str := s.map Char.toLower

/-- Alias normalization chain of decode_by_charset: ascii is upgraded
to utf-8, the narrow Chinese encodings to their extended supersets. -/
def normalizeEncoding (e : Str) : Str :=
  if e = "ascii".toList then "utf-8".toList
  else if e = "gb2312".toList ∨ e = "gbk".toList then "gb18030".toList
  else if e = "big5".toList then "big5hkscs".toList
  else e

/-- Embedding of decode_by_charset.  The retry branch mirrors the
source exactly: when the first detection is falsy (None or an empty
name) and the content is longer than the minimum guess length, a
bounded slice is re-detected; the source then immediately evaluates
the string concatenation of a log message with the new result, which
raises TypeError when that result is None, before the utf-8 fallback
below it can run. -/
def decode_by_charset (detect : List Nat → Option Str) (dec : Str → List Nat → Str)
    (content : List Nat) : Except PyExn Str :=
  let encoding := detect content
  let retried : Except PyExn (Option Str) :=
    if (encoding = none ∨ encoding = some []) ∧
        content.length > DETECT_CHARSET_GUESS_MIN_LEN then
      let sliceEnd := min (max DETECT_CHARSET_GUESS_MIN_LEN (content.length / 2))
        DETECT_CHARSET_GUESS_MAX_LEN
      match detect (content.take sliceEnd) with
      | none => Except.error PyExn.typeError
      | some e => Except.ok (some e)
    else Except.ok encoding
  match retried with
  | Except.error e => Except.error e
  | Except.ok enc? =>
    let enc1 := match enc? with
      | none => []
      | some e => e
    let enc2 := if enc1 = [] then "utf-8".toList else enc1
    Except.ok (dec (normalizeEncoding (lowerStr enc2)) content)

/-!
UTF-8 transcoding and percent escaping, supporting the path and URI
conversions of python/utils.py (urllib.parse.quote with the default
safe set) and of urllib.request.url2pathname (percent decoding of the
path component, byte runs decoded as UTF-8 with replacement).
-/

/-- UTF-8 bytes of one code point. -/
def utf8Char (c : Char) : List Nat :=
  let n := c.toNat
  if n < 0x80 then [n]
  else if n < 0x800 then [0xC0 + n / 64, 0x80 + n % 64]
  else if n < 0x10000 then [0xE0 + n / 4096, 0x80 + (n / 64) % 64, 0x80 + n % 64]
  else [0xF0 + n / 262144, 0x80 + (n / 4096) % 64, 0x80 + (n / 64) % 64, 0x80 + n % 64]

/-- UTF-8 encoding of a text, modelling str.encode with the utf-8
codec. -/
def utf8Enc (s : Str) : List Nat := s.flatMap utf8Char

/-- Replacement character emitted for undecodable byte sequences. -/
def replChar : Char := Char.ofNat 0xFFFD

/-- Continuation-byte test for the UTF-8 decoder. -/
def isCont (b : Nat) : Bool := 0x80 ≤ b && b ≤ 0xBF

/-- UTF-8 decoding with the replacement policy, with fuel (at least one
byte is consumed per step).  Invalid sequences yield the replacement
character; the grouping of invalid bytes approximates CPython, which no
verified property below depends on. -/
def utf8DecF : Nat → List Nat → Str
  | 0, _ => []
  | fuel + 1, bs =>
    match bs with
    | [] => []
    | b :: rest =>
      if b < 0x80 then Char.ofNat b :: utf8DecF fuel rest
      else if 0xC2 ≤ b && b ≤ 0xDF then
        match rest with
        | b2 :: rest2 =>
          if isCont b2 then Char.ofNat ((b - 0xC0) * 64 + (b2 - 0x80)) :: utf8DecF fuel rest2
          else replChar :: utf8DecF fuel rest
        | [] => replChar :: utf8DecF fuel rest
      else if 0xE0 ≤ b && b ≤ 0xEF then
        match rest with
        | b2 :: b3 :: rest3 =>
          if (isCont b2 && isCont b3) &&
              !(b = 0xE0 && b2 < 0xA0) && !(b = 0xED && b2 > 0x9F) then
            Char.ofNat ((b - 0xE0) * 4096 + (b2 - 0x80) * 64 + (b3 - 0x80)) :: utf8DecF fuel rest3
          else replChar :: utf8DecF fuel rest
        | _ => replChar :: utf8DecF fuel rest
      else if 0xF0 ≤ b && b ≤ 0xF4 then
        match rest with
        | b2 :: b3 :: b4 :: rest4 =>
          if ((isCont b2 && isCont b3) && isCont b4) &&
              !(b = 0xF0 && b2 < 0x90) && !(b = 0xF4 && b2 > 0x8F) then
            Char.ofNat ((b - 0xF0) * 262144 + (b2 - 0x80) * 4096 + (b3 - 0x80) * 64 + (b4 - 0x80))
              :: utf8DecF fuel rest4
          else replChar :: utf8DecF fuel rest
        | _ => replChar :: utf8DecF fuel rest
      else replChar :: utf8DecF fuel rest

/-- UTF-8 decoding with the replacement policy. -/
def utf8Dec (bs : List Nat) : Str := utf8DecF bs.length bs

/-- Hexadecimal digit test for percent escapes. -/
def isHexDigit (c : Char) : Bool :=
  ('0' ≤ c && c ≤ '9') || ('a' ≤ c && c ≤ 'f') || ('A' ≤ c && c ≤ 'F')

/-- Value of one hexadecimal digit. -/
def hexVal (c : Char) : Nat :=
  if '0' ≤ c && c ≤ '9' then c.toNat - '0'.toNat
  else if 'a' ≤ c && c ≤ 'f' then c.toNat - 'a'.toNat + 10
  else c.toNat - 'A'.toNat + 10

/-- Tokenization step of urllib.parse.unquote: a percent sign followed
by two hexadecimal digits yields a byte, anything else passes through
as a literal character (including a percent sign with an invalid
escape, which Python keeps as-is). -/
def pctTokensF : Nat → Str → List (Char ⊕ Nat)
  | 0, _ => []
  | fuel + 1, s =>
    match s with
    | [] => []
    | '%' :: h1 :: h2 :: rest2 =>
      if isHexDigit h1 && isHexDigit h2 then
        Sum.inr (hexVal h1 * 16 + hexVal h2) :: pctTokensF fuel rest2
      else Sum.inl '%' :: pctTokensF fuel (h1 :: h2 :: rest2)
    | c :: rest => Sum.inl c :: pctTokensF fuel rest

/-- Tokenization of unquote over a whole text (one character is
consumed per step, so fuel equal to the length suffices). -/
def pctTokens (s : Str) : List (Char ⊕ Nat) := pctTokensF (s.length + 1) s

/-- Splits the leading run of escaped bytes off a token list. -/
def takeBytes : List (Char ⊕ Nat) → List Nat × List (Char ⊕ Nat)
  | Sum.inr b :: rest =>
    let (bs, r) := takeBytes rest
    (b :: bs, r)
  | l => ([], l)

/-- Reassembly step of unquote, with fuel: literal characters pass
through, maximal runs of escaped bytes are decoded as UTF-8 with
replacement. -/
def pctGroupF : Nat → List (Char ⊕ Nat) → Str
  | 0, _ => []
  | fuel + 1, l =>
    match l with
    | [] => []
    | Sum.inl c :: rest => c :: pctGroupF fuel rest
    | Sum.inr b :: rest =>
      let (bs, r) := takeBytes rest
      utf8Dec (b :: bs) ++ pctGroupF fuel r

/-- Embedding of urllib.parse.unquote with the default utf-8 codec and
replace policy. -/
def unquote (s : Str) : Str := pctGroupF (s.length + 1) (pctTokens s)

/-- Embedding of urllib.request.url2pathname on posix, which percent
decodes the path component of a file URI. -/
def url2pathname (p : Str) : Str := unquote p

/-- Always-safe characters of urllib.parse.quote plus its default safe
set, the slash. -/
def quoteSafe (c : Char) : Bool :=
  ('A' ≤ c && c ≤ 'Z') || ('a' ≤ c && c ≤ 'z') || ('0' ≤ c && c ≤ '9') ||
    c == '_' || c == '.' || c == '-' || c == '~' || c == '/'

/-- Upper-case hexadecimal digit, as emitted by quote. -/
def hexDigitUpper : Nat → Char
  | 0 => '0' | 1 => '1' | 2 => '2' | 3 => '3' | 4 => '4'
  | 5 => '5' | 6 => '6' | 7 => '7' | 8 => '8' | 9 => '9'
  | 10 => 'A' | 11 => 'B' | 12 => 'C' | 13 => 'D' | 14 => 'E' | _ => 'F'

/-- Percent escape of one byte. -/
def pctByte (b : Nat) : Str := ['%', hexDigitUpper (b / 16), hexDigitUpper (b % 16)]

/-- Embedding of urllib.parse.quote with the default safe set: safe
characters pass through, every other character is UTF-8 encoded and
each byte percent escaped. -/
def quote (s : Str) : Str :=
  s.flatMap (fun c => if quoteSafe c then [c] else (utf8Char c).flatMap pctByte)

/-!
URL parsing (urllib.parse.urlparse), restricted to the components the
source reads: scheme and path.  The scheme is recognized when the text
before the first colon is nonempty, starts with an ASCII letter and
consists of scheme characters, and is lowered (Python 3.9 and later
semantics; every URI handled by the daemon parses identically across
versions).  A leading double slash introduces a network location that
runs to the next slash, question mark or hash; fragment and query are
then split off the remainder and the path is what is left.
-/

/-- Splits a list at the first occurrence of a character; the rest
starts after that character. -/
def splitAtChar (a : Char) : Str → Option (Str × Str)
  | [] => none
  | c :: cs =>
    if c = a then some ([], cs)
    else match splitAtChar a cs with
      | some (l, r) => some (c :: l, r)
      | none => none

/-- ASCII letter test. -/
def asciiAlpha (c : Char) : Bool := ('A' ≤ c && c ≤ 'Z') || ('a' ≤ c && c ≤ 'z')

/-- Characters allowed in a URL scheme. -/
def schemeChar (c : Char) : Bool :=
  asciiAlpha c || ('0' ≤ c && c ≤ '9') || c == '+' || c == '-' || c == '.'

structure UrlParts where
  scheme : Str
  netloc : Str
  path : Str
deriving DecidableEq

/-- Embedding of urllib.parse.urlparse restricted to scheme, netloc
and path. -/
def parseUrl (u : Str) : UrlParts :=
  let (scheme, rest) :=
    match splitAtChar ':' u with
    | some (c :: before, after) =>
      if asciiAlpha c && (c :: before).all schemeChar then (lowerStr (c :: before), after)
      else ([], u)
    | _ => ([], u)
  let (netloc, rest2) :=
    if strStarts "//".toList rest then
      let t := rest.drop 2
      (t.takeWhile (fun c => !(c == '/' || c == '?' || c == '#')),
        t.dropWhile (fun c => !(c == '/' || c == '?' || c == '#')))
    else ([], rest)
  let path := (rest2.takeWhile (fun c => !(c == '#'))).takeWhile (fun c => !(c == '?'))
  { scheme := scheme, netloc := netloc, path := path }

/-!
Path helpers of os.path on posix, as used by python/utils.py and
daemon/lyrics.py.
-/

/-- Test that a path is absolute (posix: starts with a slash). -/
def pyIsAbs (p : Str) : Bool := strStarts "/".toList p

/-- Removal of trailing slashes. -/
def rstripSlash (p : Str) : Str := (p.reverse.dropWhile (fun c => c == '/')).reverse

/-- Embedding of posixpath.dirname: everything before the last slash,
with trailing slashes stripped unless the head is all slashes. -/
def dirName (p : Str) : Str :=
  let tailLen := (p.reverse.takeWhile (fun c => !(c == '/'))).length
  let head := p.take (p.length - tailLen)
  if head.any (fun c => !(c == '/')) then rstripSlash head else head

/-- Test that a path ends with a slash. -/
def endsSlash (p : Str) : Bool :=
  match p.getLast? with
  | some c => c == '/'
  | none => false

/-- Embedding of posixpath.join for two components. -/
def pathJoin (a b : Str) : Str :=
  if pyIsAbs b then b
  else if a = [] ∨ endsSlash a then a ++ b
  else a ++ '/' :: b

/-- Embedding of posixpath.expanduser, parameterized by the home
directory lookup: the empty user names the current user (the HOME
environment variable), any other user is looked up in the account
database, and a failed lookup leaves the path unchanged. -/
def expanduser (home : Str → Option Str) (path : Str) : Str :=
  if strStarts "~".toList path then
    let i := match splitAtChar '/' (path.drop 1) with
      | some (before, _) => 1 + before.length
      | none => path.length
    let user := (path.take i).drop 1
    match home user with
    | none => path
    | some h =>
      let res := rstripSlash h ++ path.drop i
      if res = [] then "/".toList else res
  else path

/-- Embedding of path2uri (python/utils.py lines 86-108): the path is
tilde expanded first; a path that is then not absolute is returned
directly, an absolute path becomes a file URI with its characters
percent quoted. -/
def path2uri (home : Str → Option Str) (path : Str) : Str :=
  let p := expanduser home path
  if pyIsAbs p then "file://".toList ++ quote p else p

/-!
URI Content Gateway (daemon/lyrics.py lines 136-240).  The backing
filesystem is explicit: a partial map from decoded paths to byte
contents, a directory-existence predicate, and two environment
predicates telling whether directory creation and opening for write
succeed (modelling I/O failures such as permission errors; makedirs is
recorded only for the immediate parent directory, ancestors are not
tracked).
-/

structure FS where
  files : Str → Option (List Nat)
  isdir : Str → Bool
  mkdirOk : Str → Bool
  openOk : Str → Bool

/-- Schemes accepted by is_valid_uri; the tag scheme is commented out
in the source. -/
def SUPPORTED_SCHEMES : List Str := ["file".toList, "none".toList]

/-- Embedding of is_valid_uri (daemon/lyrics.py lines 136-145): the URI
must begin with a supported scheme followed by a colon. -/
def is_valid_uri (uri : Str) : Bool :=
  SUPPORTED_SCHEMES.any (fun s => strStarts (s ++ [':']) uri)

/-- Embedding of ensure_uri_scheme (daemon/lyrics.py lines 148-160):
a nonempty value without a scheme is treated as a file path and
converted by path2uri; anything else is unchanged. -/
def ensure_uri_scheme (home : Str → Option Str) (uri : Str) : Str :=
  if uri = [] then uri
  else if (parseUrl uri).scheme = [] then path2uri home uri
  else uri

/-- NUL code point, written out since Lean has no short escape for
it. -/
def nulChar : Char := Char.ofNat 0

/-- Removal of every NUL character, modelling str.replace of NUL with
the empty string. -/
def stripNul (s : Str) : Str := s.filter (fun c => !(c == nulChar))

/-- Embedding of the file branch of loading: read the bytes at the
decoded path, None on any I/O failure. -/
def load_from_file (fs : FS) (parts : UrlParts) : Option (List Nat) :=
  fs.files (url2pathname parts.path)

/-- Embedding of load_from_uri (daemon/lyrics.py lines 178-195):
dispatch on the parsed scheme (a KeyError escapes for any other
scheme), then decode the bytes and strip NUL characters. -/
def load_from_uri (detect : List Nat → Option Str) (dec : Str → List Nat → Str)
    (fs : FS) (uri : Str) : Except PyExn (Option Str) :=
  let parts := parseUrl uri
  let content? : Except PyExn (Option (List Nat)) :=
    if parts.scheme = "file".toList then Except.ok (load_from_file fs parts)
    else if parts.scheme = "none".toList then Except.ok (some [])
    else Except.error PyExn.keyError
  match content? with
  | Except.error e => Except.error e
  | Except.ok none => Except.ok none
  | Except.ok (some bs) =>
    match decode_by_charset detect dec bs with
    | Except.error e => Except.error e
    | Except.ok t => Except.ok (some (stripNul t))

/-- Embedding of the file branch of saving: without create the target
must already exist; with create the parent directory is created when
missing (failure is non-fatal and returns False); then the file is
opened for writing, which may itself fail non-fatally. -/
def save_to_file (fs : FS) (parts : UrlParts) (content : List Nat) (create : Bool) :
    Bool × FS :=
  let path := url2pathname parts.path
  if !create then
    if (fs.files path).isNone then (false, fs)
    else if fs.openOk path then
      (true, { fs with files := fun q => if q = path then some content else fs.files q })
    else (false, fs)
  else
    let dir := dirName path
    if !(fs.isdir dir) && !(fs.mkdirOk dir) then (false, fs)
    else
      let fs1 := if fs.isdir dir then fs
        else { fs with isdir := fun q => if q = dir then true else fs.isdir q }
      if fs1.openOk path then
        (true, { fs1 with files := fun q => if q = path then some content else fs1.files q })
      else (false, fs1)

/-- Embedding of save_to_uri (daemon/lyrics.py lines 227-240): dispatch
on the parsed scheme (KeyError otherwise); the none handler reports
success without touching the filesystem. -/
def save_to_uri (uri : Str) (content : List Nat) (create : Bool) (fs : FS) :
    Except PyExn (Bool × FS) :=
  let parts := parseUrl uri
  if parts.scheme = "file".toList then Except.ok (save_to_file fs parts content create)
  else if parts.scheme = "none".toList then Except.ok (true, fs)
  else Except.error PyExn.keyError

/-!
Resolution Engine (daemon/lyrics.py, class LyricsService).  Track
metadata is an opaque value-comparable record.  The association store
(module lrcdb, not part of the sources under verification) is
modelled from the spec: find gives the recorded URI for a metadata
value, where none models a missing record and an empty text models the
explicitly stored no-lyrics marker.  The pattern expander and the
configured pattern lists are external collaborators passed in through
PatternEnv; a failed expansion (PatternError) is an Option none and
skips the candidate.
-/

structure Metadata where
  id : Nat
deriving DecidableEq

structure PatternEnv where
  file_patterns : List Str
  path_patterns : List Str
  expand_path : Str → Metadata → Option Str
  expand_file : Str → Metadata → Option Str

/-- Embedding of find_lrc_from_db (daemon/lyrics.py lines 275-279): an
empty recorded value short circuits to the none URI, any other record
is scheme normalized; a missing record propagates as none. -/
def find_lrc_from_db (home : Str → Option Str) (db : Metadata → Option Str)
    (md : Metadata) : Option Str :=
  match db md with
  | none => none
  | some u => if u = [] then some "none:".toList else some (ensure_uri_scheme home u)

/-- Inner loop of _expand_patterns over filename patterns under one
expanded path: a failed expansion skips the candidate, the first
existing candidate file wins. -/
def expandFileLoop (env : PatternEnv) (fs : FS) (md : Metadata) (path : Str) :
    List Str → Option Str
  | [] => none
  | fp :: rest =>
    match env.expand_file fp md with
    | none => expandFileLoop env fs md path rest
    | some filename =>
      let fullpath := pathJoin path (filename ++ ".lrc".toList)
      if (fs.files fullpath).isSome then some fullpath
      else expandFileLoop env fs md path rest

/-- Outer loop of _expand_patterns over path patterns: a failed path
expansion skips to the next path pattern, and all filename patterns are
tried under one path before the next is considered. -/
def expandPathLoop (env : PatternEnv) (fs : FS) (md : Metadata) :
    List Str → Option Str
  | [] => none
  | pp :: rest =>
    match env.expand_path pp md with
    | none => expandPathLoop env fs md rest
    | some path =>
      match expandFileLoop env fs md path env.file_patterns with
      | some fp => some fp
      | none => expandPathLoop env fs md rest

/-- Embedding of _expand_patterns (daemon/lyrics.py lines 404-422). -/
def expand_patterns (env : PatternEnv) (fs : FS) (md : Metadata) : Option Str :=
  expandPathLoop env fs md env.path_patterns

/-- Embedding of find_lrc_by_pattern (daemon/lyrics.py lines 281-282);
the None of an unsuccessful search passes through ensure_uri_scheme
unchanged. -/
def find_lrc_by_pattern (home : Str → Option Str) (env : PatternEnv) (fs : FS)
    (md : Metadata) : Option Str :=
  match expand_patterns env fs md with
  | none => none
  | some p => some (ensure_uri_scheme home p)

/-- Embedding of GetRawLyrics (daemon/lyrics.py lines 303-324): try the
association store first; the explicit none record short circuits; a
record that loads returns immediately; otherwise the pattern search is
consulted and its result loaded; if nothing loads, the not-found triple
is returned. -/
def GetRawLyrics (detect : List Nat → Option Str) (dec : Str → List Nat → Str)
    (home : Str → Option Str) (db : Metadata → Option Str) (env : PatternEnv)
    (fs : FS) (md : Metadata) : Except PyExn (Bool × Str × Str) :=
  let fallback : Except PyExn (Bool × Str × Str) :=
    match find_lrc_by_pattern home env fs md with
    | some u =>
      if u = [] then Except.ok (false, [], [])
      else
        match load_from_uri detect dec fs u with
        | Except.error e => Except.error e
        | Except.ok (some lrc) => Except.ok (true, u, lrc)
        | Except.ok none => Except.ok (false, [], [])
    | none => Except.ok (false, [], [])
  match find_lrc_from_db home db md with
  | some u =>
    if u = [] then fallback
    else if u = "none:".toList then Except.ok (true, "none:".toList, [])
    else
      match load_from_uri detect dec fs u with
      | Except.error e => Except.error e
      | Except.ok (some lrc) => Except.ok (true, u, lrc)
      | Except.ok none => fallback
  | none => fallback

/-- Inner loop of _save_to_patterns over filename patterns: each
candidate URI is derived by path2uri and attempted with create=True;
a failed save threads the possibly changed filesystem on to the next
candidate; exhaustion yields the empty URI. -/
def saveFileLoop (home : Str → Option Str) (env : PatternEnv) (md : Metadata)
    (content : List Nat) (path : Str) (fs : FS) :
    List Str → Except PyExn (Str × FS)
  | [] => Except.ok ([], fs)
  | fp :: rest =>
    match env.expand_file fp md with
    | none => saveFileLoop home env md content path fs rest
    | some filename =>
      let fullpath := pathJoin path (filename ++ ".lrc".toList)
      let uri := path2uri home fullpath
      match save_to_uri uri content true fs with
      | Except.error e => Except.error e
      | Except.ok (good, fs') =>
        if good then Except.ok (uri, fs') else saveFileLoop home env md content path fs' rest

/-- Outer loop of _save_to_patterns over path patterns. -/
def saveWithPathLoop (home : Str → Option Str) (env : PatternEnv) (md : Metadata)
    (content : List Nat) (fs : FS) : List Str → Except PyExn (Str × FS)
  | [] => Except.ok ([], fs)
  | pp :: rest =>
    match env.expand_path pp md with
    | none => saveWithPathLoop home env md content fs rest
    | some path =>
      match saveFileLoop home env md content path fs env.file_patterns with
      | Except.error e => Except.error e
      | Except.ok (uri, fs') =>
        if uri = [] then saveWithPathLoop home env md content fs' rest
        else Except.ok (uri, fs')

/-- Embedding of _save_to_patterns (daemon/lyrics.py lines 377-402):
returns the first URI that saves successfully, or the empty text when
every combination is exhausted. -/
def save_to_patterns (home : Str → Option Str) (env : PatternEnv) (md : Metadata)
    (content : List Nat) (fs : FS) : Except PyExn (Str × FS) :=
  saveWithPathLoop home env md content fs env.path_patterns

/-- Mutable service state of LyricsService: the association store
contents and the current-track metadata. -/
structure SvcState where
  db : Metadata → Option Str
  curMeta : Metadata

/-- Removal of trailing NUL bytes, modelling bytes.rstrip with a NUL
argument. -/
def rstripNulBytes (content : List Nat) : List Nat :=
  (content.reverse.dropWhile (fun b => b == 0)).reverse

/-- Embedding of SetLyricContent (daemon/lyrics.py lines 342-350): the
association entry is deleted first, trailing NUL bytes are stripped,
the pattern save search runs, and the change notification fires only
when a URI was produced and the metadata is the current track.  The
result carries the returned URI, the updated service state and
filesystem, and whether the notification fired. -/
def SetLyricContent (home : Str → Option Str) (env : PatternEnv) (st : SvcState)
    (fs : FS) (md : Metadata) (content : List Nat) :
    Except PyExn (Str × SvcState × FS × Bool) :=
  let db' := fun m => if m = md then none else st.db m
  match save_to_patterns home env md (rstripNulBytes content) fs with
  | Except.error e => Except.error e
  | Except.ok (uri, fs') =>
    Except.ok (uri, { st with db := db' }, fs', decide (uri ≠ [] ∧ md = st.curMeta))

/-- Embedding of SetOffset (daemon/lyrics.py lines 367-375): validate
the URI scheme, load, rewrite the offset, re-save with create=True; the
three dedicated exceptions are surfaced, and the final filesystem is
returned alongside. -/
def SetOffset (detect : List Nat → Option Str) (dec : Str → List Nat → Str)
    (fs : FS) (uri : Str) (offset : Int) : Except PyExn Unit × FS :=
  if !(is_valid_uri uri) then (Except.error PyExn.invalidUri, fs)
  else
    match load_from_uri detect dec fs uri with
    | Except.error e => (Except.error e, fs)
    | Except.ok none => (Except.error PyExn.cannotLoad, fs)
    | Except.ok (some c) =>
      match save_to_uri uri (utf8Enc (update_lrc_offset c offset)) true fs with
      | Except.error e => (Except.error e, fs)
      | Except.ok (good, fs') =>
        if good then (Except.ok (), fs') else (Except.error PyExn.cannotSave, fs')

-- Doctest checks from the source (update_lrc_offset docstring).
example : update_lrc_offset "no tag".toList 100 = "[offset:100]\nno tag".toList := by decide
example : update_lrc_offset "[ti:title]\n[offset:200]\nSome lrc".toList 100 =
    "[ti:title]\n[offset:100]\nSome lrc".toList := by decide
example : update_lrc_offset "[ti:title][offset:200]Some lrc\nanother".toList 100 =
    "[ti:title][offset:100]Some lrc\nanother".toList := by decide
example : update_lrc_offset "Some [offset:200] lrc".toList 100 =
    "[offset:100]\nSome [offset:200] lrc".toList := by decide
example : update_lrc_offset "[[offset:200]] lrc".toList 100 =
    "[offset:100]\n[[offset:200]] lrc".toList := by decide


/-!
Scanner lemmas: soundness and completeness of the character-level
steps of the embedded regex engine.
-/

theorem payloadScan_sound : ∀ s p r, payloadScan s = some (p, r) →
    s = p ++ r ∧ ']' ∉ p ∧ '\n' ∉ p ∧ ∃ r2, r = ']' :: r2 := by
  intro s
  induction s with
  | nil => intro p r h; simp [payloadScan] at h
  | cons c cs ih =>
    intro p r h
    by_cases hc : c = ']'
    · subst hc
      simp only [payloadScan, if_pos rfl, Option.some.injEq, Prod.mk.injEq] at h
      rcases h with ⟨rfl, rfl⟩
      simp
    · by_cases hn : c = '\n'
      · subst hn
        simp [payloadScan, hc] at h
      · simp only [payloadScan, if_neg hc, if_neg hn] at h
        cases hps : payloadScan cs with
        | none => rw [hps] at h; simp at h
        | some pr =>
          obtain ⟨p0, r0⟩ := pr
          rw [hps] at h
          simp only [Option.some.injEq, Prod.mk.injEq] at h
          rcases h with ⟨rfl, rfl⟩
          obtain ⟨hs, hnp, hnn, r2, hr2⟩ := ih p0 r0 hps
          subst hs
          refine ⟨by simp, ?_, ?_, r2, hr2⟩
          · simp only [List.mem_cons, not_or]
            exact ⟨fun h => hc h.symm, hnp⟩
          · simp only [List.mem_cons, not_or]
            exact ⟨fun h => hn h.symm, hnn⟩

theorem payloadScan_complete : ∀ p r, ']' ∉ p → '\n' ∉ p →
    payloadScan (p ++ ']' :: r) = some (p, ']' :: r) := by
  intro p
  induction p with
  | nil => intro r _ _; simp [payloadScan]
  | cons c cs ih =>
    intro r hb hn
    have hc : c ≠ ']' := fun h => hb (h ▸ List.mem_cons_self c cs)
    have hcn : c ≠ '\n' := fun h => hn (h ▸ List.mem_cons_self c cs)
    have hb' : ']' ∉ cs := fun h => hb (List.mem_cons_of_mem c h)
    have hn' : '\n' ∉ cs := fun h => hn (List.mem_cons_of_mem c h)
    simp only [List.cons_append, payloadScan, if_neg hc, if_neg hcn, List.append_eq,
      ih r hb' hn']

theorem splitBracket_sound : ∀ s m r, splitBracket s = some (m, r) →
    s = m ++ ']' :: r ∧ ']' ∉ m := by
  intro s
  induction s with
  | nil => intro m r h; simp [splitBracket] at h
  | cons c cs ih =>
    intro m r h
    by_cases hc : c = ']'
    · subst hc
      simp only [splitBracket, if_pos rfl, Option.some.injEq, Prod.mk.injEq] at h
      rcases h with ⟨rfl, rfl⟩
      simp
    · simp only [splitBracket, if_neg hc] at h
      cases hps : splitBracket cs with
      | none => rw [hps] at h; simp at h
      | some pr =>
        obtain ⟨m0, r0⟩ := pr
        rw [hps] at h
        simp only [Option.some.injEq, Prod.mk.injEq] at h
        rcases h with ⟨rfl, rfl⟩
        obtain ⟨hs, hnm⟩ := ih m0 r0 hps
        subst hs
        refine ⟨by simp, ?_⟩
        simp only [List.mem_cons, not_or]
        exact ⟨fun h => hc h.symm, hnm⟩

theorem splitBracket_complete : ∀ m r, ']' ∉ m →
    splitBracket (m ++ ']' :: r) = some (m, r) := by
  intro m
  induction m with
  | nil => intro r _; simp [splitBracket]
  | cons c cs ih =>
    intro r hb
    have hc : c ≠ ']' := fun h => hb (h ▸ List.mem_cons_self c cs)
    have hb' : ']' ∉ cs := fun h => hb (List.mem_cons_of_mem c h)
    simp only [List.cons_append, splitBracket, if_neg hc, List.append_eq, ih r hb']

theorem splitBracket_len : ∀ s m r, splitBracket s = some (m, r) → r.length < s.length := by
  intro s m r h
  obtain ⟨hs, _⟩ := splitBracket_sound s m r h
  subst hs
  simp
  omega

theorem splitAtNl_sound : ∀ s l r, splitAtNl s = some (l, r) →
    s = l ++ '\n' :: r ∧ '\n' ∉ l := by
  intro s
  induction s with
  | nil => intro l r h; simp [splitAtNl] at h
  | cons c cs ih =>
    intro l r h
    by_cases hc : c = '\n'
    · subst hc
      simp only [splitAtNl, if_pos rfl, Option.some.injEq, Prod.mk.injEq] at h
      rcases h with ⟨rfl, rfl⟩
      simp
    · simp only [splitAtNl, if_neg hc] at h
      cases hps : splitAtNl cs with
      | none => rw [hps] at h; simp at h
      | some pr =>
        obtain ⟨l0, r0⟩ := pr
        rw [hps] at h
        simp only [Option.some.injEq, Prod.mk.injEq] at h
        rcases h with ⟨rfl, rfl⟩
        obtain ⟨hs, hnl⟩ := ih l0 r0 hps
        subst hs
        refine ⟨by simp, ?_⟩
        simp only [List.mem_cons, not_or]
        exact ⟨fun h => hc h.symm, hnl⟩

theorem splitAtNl_complete : ∀ l r, '\n' ∉ l →
    splitAtNl (l ++ '\n' :: r) = some (l, r) := by
  intro l
  induction l with
  | nil => intro r _; simp [splitAtNl]
  | cons c cs ih =>
    intro r hb
    have hc : c ≠ '\n' := fun h => hb (h ▸ List.mem_cons_self c cs)
    have hb' : '\n' ∉ cs := fun h => hb (List.mem_cons_of_mem c h)
    simp only [List.cons_append, splitAtNl, if_neg hc, List.append_eq, ih r hb']

theorem splitAtNl_len : ∀ s l r, splitAtNl s = some (l, r) → r.length < s.length := by
  intro s l r h
  obtain ⟨hs, _⟩ := splitAtNl_sound s l r h
  subst hs
  simp
  omega

theorem strStarts_iff : ∀ p s, strStarts p s = true ↔ ∃ t, s = p ++ t := by
  intro p
  induction p with
  | nil => intro s; simp [strStarts]
  | cons c cs ih =>
    intro s
    cases s with
    | nil => simp [strStarts]
    | cons d ds =>
      simp only [strStarts, Bool.and_eq_true, beq_iff_eq]
      constructor
      · rintro ⟨rfl, h2⟩
        obtain ⟨t, rfl⟩ := (ih ds).mp h2
        exact ⟨t, rfl⟩
      · rintro ⟨t, ht⟩
        simp only [List.cons_append, List.cons.injEq] at ht
        obtain ⟨rfl, h2⟩ := ht
        exact ⟨rfl, (ih ds).mpr ⟨t, h2⟩⟩

theorem strStarts_append (p t : Str) : strStarts p (p ++ t) = true :=
  (strStarts_iff p (p ++ t)).mpr ⟨t, rfl⟩

theorem offsetLit_len : offsetLit.length = 8 := rfl

theorem offsetLit_no_bracket : ']' ∉ offsetLit := by decide

theorem offsetLit_no_nl : '\n' ∉ offsetLit := by decide

theorem tryOffset_sound : ∀ s x p r, tryOffset s = some (x, p, r) →
    x = offsetLit ∧ s = offsetLit ++ p ++ r ∧ ']' ∉ p ∧ '\n' ∉ p ∧ ∃ r2, r = ']' :: r2 := by
  intro s x p r h
  unfold tryOffset at h
  by_cases hss : strStarts offsetLit s = true
  · rw [if_pos hss] at h
    obtain ⟨t, rfl⟩ := (strStarts_iff offsetLit s).mp hss
    have hdrop : (offsetLit ++ t).drop 8 = t := by
      have := List.drop_left offsetLit t
      rwa [offsetLit_len] at this
    rw [hdrop] at h
    cases hps : payloadScan t with
    | none => rw [hps] at h; simp at h
    | some pr =>
      obtain ⟨p0, r0⟩ := pr
      rw [hps] at h
      simp only [Option.some.injEq, Prod.mk.injEq] at h
      rcases h with ⟨rfl, rfl, rfl⟩
      obtain ⟨ht, hnp, hnn, r2, hr2⟩ := payloadScan_sound t p0 r0 hps
      subst ht
      exact ⟨rfl, by simp, hnp, hnn, r2, hr2⟩
  · rw [if_neg hss] at h
    simp at h

theorem tryOffset_complete : ∀ p r, ']' ∉ p → '\n' ∉ p →
    tryOffset (offsetLit ++ p ++ ']' :: r) = some (offsetLit, p, ']' :: r) := by
  intro p r hb hn
  unfold tryOffset
  have hss : strStarts offsetLit (offsetLit ++ p ++ ']' :: r) = true := by
    rw [List.append_assoc]
    exact strStarts_append offsetLit (p ++ ']' :: r)
  rw [if_pos hss]
  have hdrop : (offsetLit ++ p ++ ']' :: r).drop 8 = p ++ ']' :: r := by
    rw [List.append_assoc]
    have := List.drop_left offsetLit (p ++ ']' :: r)
    rwa [offsetLit_len] at this
  rw [hdrop, payloadScan_complete p r hb hn]

theorem matchStackF_irrel : ∀ f1 : Nat, ∀ s : Str, ∀ f2 : Nat,
    s.length < f1 → s.length < f2 → matchStackF f1 s = matchStackF f2 s := by
  intro f1
  induction f1 with
  | zero => intro s f2 h1 _; omega
  | succ a ih =>
    intro s f2 h1 h2
    cases f2 with
    | zero => omega
    | succ b =>
      simp only [matchStackF]
      cases hto : tryOffset s with
      | some res => rfl
      | none =>
        cases s with
        | nil => rfl
        | cons c t =>
          by_cases hc : c = '['
          · simp only [if_pos hc]
            cases hsb : splitBracket t with
            | none => rfl
            | some pr =>
              obtain ⟨m, rest⟩ := pr
              have hlt : rest.length < t.length := splitBracket_len t m rest hsb
              have hlen : (c :: t).length = t.length + 1 := rfl
              dsimp only
              rw [ih rest b (by rw [hlen] at h1; omega) (by rw [hlen] at h2; omega)]
          · simp only [if_neg hc]

theorem matchStackF_succ (fuel : Nat) (s : Str) : matchStackF (fuel + 1) s =
    (match tryOffset s with
     | some res => some res
     | none =>
       match s with
       | c :: t =>
         if c = '[' then
           match splitBracket t with
           | some (m, rest) =>
             match matchStackF fuel rest with
             | some (c2, p, r) => some ('[' :: m ++ ']' :: c2, p, r)
             | none => none
           | none => none
         else none
       | [] => none) := rfl

theorem matchStack_eq (s : Str) : matchStack s =
    (match tryOffset s with
     | some res => some res
     | none =>
       match s with
       | c :: t =>
         if c = '[' then
           match splitBracket t with
           | some (m, rest) =>
             match matchStack rest with
             | some (c2, p, r) => some ('[' :: m ++ ']' :: c2, p, r)
             | none => none
           | none => none
         else none
       | [] => none) := by
  unfold matchStack
  rw [matchStackF_succ]
  cases hto : tryOffset s with
  | some res => rfl
  | none =>
    cases s with
    | nil => rfl
    | cons c t =>
      by_cases hc : c = '['
      · simp only [if_pos hc]
        cases hsb : splitBracket t with
        | none => rfl
        | some pr =>
          obtain ⟨m, rest⟩ := pr
          have hlt : rest.length < t.length := splitBracket_len t m rest hsb
          have heq : matchStackF (c :: t).length rest = matchStackF (rest.length + 1) rest := by
            apply matchStackF_irrel
            · simp only [List.length_cons]; omega
            · omega
          dsimp only
          rw [heq]
      · simp only [if_neg hc]

theorem matchStack_sound_aux : ∀ n s x p r, s.length ≤ n → matchStack s = some (x, p, r) →
    (∃ t0, Tags t0 ∧ x = t0 ++ offsetLit) ∧ s = x ++ p ++ r ∧ ']' ∉ p ∧ '\n' ∉ p ∧
      ∃ r2, r = ']' :: r2 := by
  intro n
  induction n with
  | zero =>
    intro s x p r hlen h
    have hs : s = [] := by
      cases s with
      | nil => rfl
      | cons a b => simp at hlen
    subst hs
    rw [show matchStack [] = none from rfl] at h
    simp at h
  | succ n ih =>
    intro s x p r hlen h
    rw [matchStack_eq] at h
    cases hto : tryOffset s with
    | some res =>
      rw [hto] at h
      obtain ⟨x0, p0, r0⟩ := res
      simp only [Option.some.injEq, Prod.mk.injEq] at h
      rcases h with ⟨rfl, rfl, rfl⟩
      obtain ⟨hx, hs, hnp, hnn, r2, hr2⟩ := tryOffset_sound s x0 p0 r0 hto
      subst hx
      exact ⟨⟨[], Tags.nil, by simp⟩, hs, hnp, hnn, r2, hr2⟩
    | none =>
      rw [hto] at h
      dsimp only at h
      cases s with
      | nil => simp at h
      | cons c t =>
        dsimp only at h
        by_cases hc : c = '['
        · rw [if_pos hc] at h
          subst hc
          cases hsb : splitBracket t with
          | none => rw [hsb] at h; simp at h
          | some pr =>
            obtain ⟨m, rest⟩ := pr
            rw [hsb] at h
            dsimp only at h
            cases hms : matchStack rest with
            | none => rw [hms] at h; simp at h
            | some res2 =>
              obtain ⟨c2, p2, r2⟩ := res2
              rw [hms] at h
              simp only [Option.some.injEq, Prod.mk.injEq] at h
              rcases h with ⟨rfl, rfl, rfl⟩
              have hlt : rest.length < t.length := splitBracket_len t m rest hsb
              have hbnd : rest.length ≤ n := by
                simp only [List.length_cons] at hlen
                omega
              obtain ⟨⟨t0, htags, hx⟩, hrest, hnp, hnn, rr, hrr⟩ := ih rest c2 p2 r2 hbnd hms
              obtain ⟨hmt, hnm⟩ := splitBracket_sound t m rest hsb
              subst hmt
              refine ⟨⟨'[' :: (m ++ ']' :: t0), Tags.cons m t0 hnm htags, ?_⟩, ?_, hnp, hnn, rr, hrr⟩
              · subst hx
                simp
              · rw [hrest]
                simp
        · rw [if_neg hc] at h
          simp at h

theorem matchStack_sound (s x p r : Str) (h : matchStack s = some (x, p, r)) :
    (∃ t0, Tags t0 ∧ x = t0 ++ offsetLit) ∧ s = x ++ p ++ r ∧ ']' ∉ p ∧ '\n' ∉ p ∧
      ∃ r2, r = ']' :: r2 :=
  matchStack_sound_aux s.length s x p r (Nat.le_refl _) h

theorem matchStack_complete : ∀ t0 pay r, Tags t0 → ']' ∉ pay → '\n' ∉ pay →
    ∃ res, matchStack (t0 ++ offsetLit ++ pay ++ ']' :: r) = some res := by
  intro t0 pay r ht
  induction ht with
  | nil =>
    intro hb hn
    refine ⟨(offsetLit, pay, ']' :: r), ?_⟩
    rw [matchStack_eq]
    have hto : tryOffset (([] : Str) ++ offsetLit ++ pay ++ ']' :: r)
        = some (offsetLit, pay, ']' :: r) := by
      simpa using tryOffset_complete pay r hb hn
    rw [show (([] : Str) ++ offsetLit ++ pay ++ ']' :: r) = offsetLit ++ pay ++ ']' :: r by simp] at hto ⊢
    rw [hto]
  | cons m t hnm htags ih =>
    intro hb hn
    obtain ⟨res2, hres2⟩ := ih hb hn
    have hform : ('[' :: (m ++ ']' :: t)) ++ offsetLit ++ pay ++ ']' :: r
        = '[' :: (m ++ (']' :: (t ++ offsetLit ++ pay ++ ']' :: r))) := by
      simp [List.append_assoc]
    rw [hform, matchStack_eq]
    cases hto : tryOffset ('[' :: (m ++ (']' :: (t ++ offsetLit ++ pay ++ ']' :: r)))) with
    | some res =>
      exact ⟨res, rfl⟩
    | none =>
      have hsb : splitBracket (m ++ ']' :: (t ++ offsetLit ++ pay ++ ']' :: r))
          = some (m, t ++ offsetLit ++ pay ++ ']' :: r) :=
        splitBracket_complete m (t ++ offsetLit ++ pay ++ ']' :: r) hnm
      obtain ⟨c2, p2, r2⟩ := res2
      simp only [if_pos rfl, hsb, hres2]
      exact ⟨_, rfl⟩

theorem searchFromF_succ (fuel : Nat) (s : Str) : searchFromF (fuel + 1) s =
    (match matchStack s with
     | some res => some res
     | none =>
       match splitAtNl s with
       | some (l, rest) =>
         match searchFromF fuel rest with
         | some (c, p, r) => some (l ++ '\n' :: c, p, r)
         | none => none
       | none => none) := rfl

theorem searchFromF_irrel : ∀ f1 : Nat, ∀ s : Str, ∀ f2 : Nat,
    s.length < f1 → s.length < f2 → searchFromF f1 s = searchFromF f2 s := by
  intro f1
  induction f1 with
  | zero => intro s f2 h1 _; omega
  | succ a ih =>
    intro s f2 h1 h2
    cases f2 with
    | zero => omega
    | succ b =>
      rw [searchFromF_succ, searchFromF_succ]
      cases hms : matchStack s with
      | some res => rfl
      | none =>
        cases hnl : splitAtNl s with
        | none => rfl
        | some pr =>
          obtain ⟨l, rest⟩ := pr
          have hlt : rest.length < s.length := splitAtNl_len s l rest hnl
          dsimp only
          rw [ih rest b (by omega) (by omega)]

theorem searchFrom_eq (s : Str) : searchFrom s =
    (match matchStack s with
     | some res => some res
     | none =>
       match splitAtNl s with
       | some (l, rest) =>
         match searchFrom rest with
         | some (c, p, r) => some (l ++ '\n' :: c, p, r)
         | none => none
       | none => none) := by
  unfold searchFrom
  rw [searchFromF_succ]
  cases hms : matchStack s with
  | some res => rfl
  | none =>
    cases hnl : splitAtNl s with
    | none => rfl
    | some pr =>
      obtain ⟨l, rest⟩ := pr
      have hlt : rest.length < s.length := splitAtNl_len s l rest hnl
      have heq : searchFromF s.length rest = searchFromF (rest.length + 1) rest := by
        apply searchFromF_irrel
        · omega
        · omega
      dsimp only
      rw [heq]

theorem searchFrom_sound_aux : ∀ n s pre pay suff, s.length ≤ n →
    searchFrom s = some (pre, pay, suff) →
    s = pre ++ pay ++ suff ∧
    (∃ a t0, (a = [] ∨ ∃ a0, a = a0 ++ ['\n']) ∧ Tags t0 ∧ pre = a ++ t0 ++ offsetLit) ∧
    ']' ∉ pay ∧ '\n' ∉ pay ∧ ∃ s2, suff = ']' :: s2 := by
  intro n
  induction n with
  | zero =>
    intro s pre pay suff hlen h
    have hs : s = [] := by
      cases s with
      | nil => rfl
      | cons a b => simp at hlen
    subst hs
    rw [searchFrom_eq] at h
    rw [show matchStack [] = none from rfl] at h
    simp [splitAtNl] at h
  | succ n ih =>
    intro s pre pay suff hlen h
    rw [searchFrom_eq] at h
    cases hms : matchStack s with
    | some res =>
      rw [hms] at h
      obtain ⟨x0, p0, r0⟩ := res
      simp only [Option.some.injEq, Prod.mk.injEq] at h
      rcases h with ⟨rfl, rfl, rfl⟩
      obtain ⟨⟨t0, htags, hx⟩, hs, hnp, hnn, r2, hr2⟩ := matchStack_sound s x0 p0 r0 hms
      exact ⟨hs, ⟨[], t0, Or.inl rfl, htags, by simpa using hx⟩, hnp, hnn, r2, hr2⟩
    | none =>
      rw [hms] at h
      dsimp only at h
      cases hnl : splitAtNl s with
      | none => rw [hnl] at h; simp at h
      | some pr =>
        obtain ⟨l, rest⟩ := pr
        rw [hnl] at h
        dsimp only at h
        cases hsf : searchFrom rest with
        | none => rw [hsf] at h; simp at h
        | some res2 =>
          obtain ⟨c2, p2, r2⟩ := res2
          rw [hsf] at h
          simp only [Option.some.injEq, Prod.mk.injEq] at h
          rcases h with ⟨rfl, rfl, rfl⟩
          have hltn : rest.length < s.length := splitAtNl_len s l rest hnl
          obtain ⟨hrest, ⟨a2, t0, ha2, htags, hpre2⟩, hnp, hnn, s2, hs2⟩ :=
            ih rest c2 p2 r2 (by omega) hsf
          obtain ⟨hsl, hnll⟩ := splitAtNl_sound s l rest hnl
          refine ⟨?_, ⟨l ++ '\n' :: a2, t0, ?_, htags, ?_⟩, hnp, hnn, s2, hs2⟩
          · rw [hsl, hrest]; simp
          · rcases ha2 with rfl | ⟨a0, rfl⟩
            · exact Or.inr ⟨l, by simp⟩
            · exact Or.inr ⟨l ++ '\n' :: a0, by simp⟩
          · rw [hpre2]; simp

theorem mem_first_split : ∀ (x : Char) (l : Str), x ∈ l →
    ∃ l1 l2, l = l1 ++ x :: l2 ∧ x ∉ l1 := by
  intro x l
  induction l with
  | nil => intro h; simp at h
  | cons c cs ih =>
    intro h
    by_cases hc : c = x
    · subst hc
      exact ⟨[], cs, rfl, by simp⟩
    · have hx : x ∈ cs := by
        rcases List.mem_cons.mp h with h1 | h2
        · exact absurd h1.symm hc
        · exact h2
      obtain ⟨l1, l2, hl, hnl⟩ := ih hx
      refine ⟨c :: l1, l2, by rw [hl]; simp, ?_⟩
      simp only [List.mem_cons, not_or]
      exact ⟨fun hh => hc hh.symm, hnl⟩

theorem searchFrom_complete_aux : ∀ n a z, a.length ≤ n →
    (a = [] ∨ ∃ a0, a = a0 ++ ['\n']) → (∃ res, matchStack z = some res) →
    ∃ res, searchFrom (a ++ z) = some res := by
  intro n
  induction n with
  | zero =>
    intro a z hlen _ hz
    have ha : a = [] := by
      cases a with
      | nil => rfl
      | cons c cs => simp at hlen
    subst ha
    obtain ⟨res, hres⟩ := hz
    refine ⟨res, ?_⟩
    rw [searchFrom_eq]
    simp only [List.nil_append, hres]
  | succ n ih =>
    intro a z hlen ha hz
    rcases ha with rfl | ⟨a0, rfl⟩
    · obtain ⟨res, hres⟩ := hz
      refine ⟨res, ?_⟩
      rw [searchFrom_eq]
      simp only [List.nil_append, hres]
    · rw [searchFrom_eq]
      cases hms : matchStack ((a0 ++ ['\n']) ++ z) with
      | some res => exact ⟨res, rfl⟩
      | none =>
        have hmem : '\n' ∈ a0 ++ ['\n'] := by simp
        obtain ⟨l1, a2, hdec, hnl1⟩ := mem_first_split '\n' (a0 ++ ['\n']) hmem
        have hsplit : splitAtNl ((a0 ++ ['\n']) ++ z) = some (l1, a2 ++ z) := by
          rw [hdec, List.append_assoc, List.cons_append]
          exact splitAtNl_complete l1 (a2 ++ z) hnl1
        have ha2 : a2 = [] ∨ ∃ a3, a2 = a3 ++ ['\n'] := by
          rcases a2.eq_nil_or_concat with h | ⟨l, b, rfl⟩
          · exact Or.inl h
          · right
            have heq : (l1 ++ '\n' :: l) ++ [b] = a0 ++ ['\n'] := by
              rw [hdec]
              simp [List.concat_eq_append]
            have hb := (List.append_inj' heq (by simp)).2
            simp only [List.cons.injEq] at hb
            exact ⟨l, by simp [List.concat_eq_append, hb.1]⟩
        have hlen2 : a2.length ≤ n := by
          have hll : (a0 ++ ['\n']).length = l1.length + 1 + a2.length := by
            rw [hdec]
            simp only [List.length_append, List.length_cons]
            omega
          have h1 : (a0 ++ ['\n']).length ≤ n + 1 := hlen
          omega
        obtain ⟨res2, hres2⟩ := ih a2 z hlen2 ha2 hz
        obtain ⟨c2, p2, r2⟩ := res2
        rw [hsplit]
        dsimp only
        rw [hres2]
        exact ⟨(l1 ++ '\n' :: c2, p2, r2), rfl⟩

theorem strStarts_long : ∀ q w z : Str, q.length ≤ w.length →
    strStarts q (w ++ z) = strStarts q w := by
  intro q
  induction q with
  | nil => intro w z _; rfl
  | cons a qs ih =>
    intro w z hlen
    cases w with
    | nil => simp at hlen
    | cons b ws =>
      simp only [List.cons_append, strStarts, List.append_eq]
      rw [ih ws z (by simpa using hlen)]

theorem payloadScan_nl (X : Str) : payloadScan ('\n' :: X) = none := by
  simp [payloadScan]

theorem payloadScan_corr : ∀ d pay pay' s2 : Str, ']' ∉ pay' → '\n' ∉ pay' →
    (payloadScan (d ++ (pay ++ ']' :: s2))).isSome →
    (payloadScan (d ++ (pay' ++ ']' :: s2))).isSome := by
  intro d
  induction d with
  | nil =>
    intro pay pay' s2 hb hn _
    simp only [List.nil_append]
    rw [payloadScan_complete pay' s2 hb hn]
    rfl
  | cons c cs ih =>
    intro pay pay' s2 hb hn h
    by_cases hc : c = ']'
    · subst hc
      simp [payloadScan]
    · by_cases hn2 : c = '\n'
      · subst hn2
        rw [List.cons_append, payloadScan_nl] at h
        simp at h
      · simp only [List.cons_append, payloadScan, if_neg hc, if_neg hn2, List.append_eq] at h ⊢
        cases hold : payloadScan (cs ++ (pay ++ ']' :: s2)) with
        | none => rw [hold] at h; simp at h
        | some pr =>
          have hsm : (payloadScan (cs ++ (pay ++ ']' :: s2))).isSome := by
            rw [hold]; rfl
          have hnew := ih pay pay' s2 hb hn hsm
          cases hnew2 : payloadScan (cs ++ (pay' ++ ']' :: s2)) with
          | none => rw [hnew2] at hnew; simp at hnew
          | some pr2 =>
            obtain ⟨p2, r2⟩ := pr2
            simp

theorem tryOffset_isSome_iff (s : Str) : (tryOffset s).isSome =
    (strStarts offsetLit s && (payloadScan (s.drop 8)).isSome) := by
  unfold tryOffset
  by_cases h : strStarts offsetLit s = true
  · rw [if_pos h, h]
    cases hps : payloadScan (s.drop 8) with
    | some pr => obtain ⟨p, r⟩ := pr; simp
    | none => simp
  · have hf : strStarts offsetLit s = false := by
      revert h; cases strStarts offsetLit s <;> simp
    rw [if_neg h, hf]
    simp

theorem wrapMS_isSome (m X : Str) :
    (match matchStack X with
     | some (c2, p, r) => some ('[' :: m ++ ']' :: c2, p, r)
     | none => (none : Option (Str × Str × Str))).isSome = (matchStack X).isSome := by
  cases h : matchStack X with
  | some res => obtain ⟨c2, p, r⟩ := res; rfl
  | none => rfl

theorem tryOffset_corr (w pay pay' s2 : Str) (hw : 8 ≤ w.length)
    (hb : ']' ∉ pay') (hn : '\n' ∉ pay') :
    (tryOffset (w ++ (pay ++ ']' :: s2))).isSome →
    (tryOffset (w ++ (pay' ++ ']' :: s2))).isSome := by
  intro h
  rw [tryOffset_isSome_iff] at h ⊢
  have hq : offsetLit.length ≤ w.length := by rw [offsetLit_len]; exact hw
  have hss : strStarts offsetLit (w ++ (pay ++ ']' :: s2)) = strStarts offsetLit w :=
    strStarts_long offsetLit w _ hq
  have hss' : strStarts offsetLit (w ++ (pay' ++ ']' :: s2)) = strStarts offsetLit w :=
    strStarts_long offsetLit w _ hq
  have hdrop : (w ++ (pay ++ ']' :: s2)).drop 8 = w.drop 8 ++ (pay ++ ']' :: s2) :=
    List.drop_append_of_le_length hw
  have hdrop' : (w ++ (pay' ++ ']' :: s2)).drop 8 = w.drop 8 ++ (pay' ++ ']' :: s2) :=
    List.drop_append_of_le_length hw
  rw [hss, hdrop] at h
  rw [hss', hdrop']
  simp only [Bool.and_eq_true] at h ⊢
  exact ⟨h.1, payloadScan_corr (w.drop 8) pay pay' s2 hb hn h.2⟩

theorem msgen_aux : ∀ n : Nat, ∀ u0 pay pay' s2 : Str, u0.length ≤ n →
    ']' ∉ pay → '\n' ∉ pay → ']' ∉ pay' → '\n' ∉ pay' →
    (matchStack (u0 ++ offsetLit ++ pay ++ ']' :: s2)).isSome →
    (matchStack (u0 ++ offsetLit ++ pay' ++ ']' :: s2)).isSome := by
  intro n
  induction n with
  | zero =>
    intro u0 pay pay' s2 hlen hbp hnp hb hn _
    have hu : u0 = [] := by
      cases u0 with
      | nil => rfl
      | cons a b => simp at hlen
    subst hu
    obtain ⟨res, hres⟩ := matchStack_complete [] pay' s2 Tags.nil hb hn
    simp only [List.nil_append] at hres ⊢
    rw [hres]
    rfl
  | succ n ih =>
    intro u0 pay pay' s2 hlen hbp hnp hb hn hold
    cases u0 with
    | nil =>
      obtain ⟨res, hres⟩ := matchStack_complete [] pay' s2 Tags.nil hb hn
      simp only [List.nil_append] at hres ⊢
      rw [hres]
      rfl
    | cons c u1 =>
      have hA : (c :: u1) ++ offsetLit ++ pay ++ ']' :: s2
          = c :: (u1 ++ offsetLit ++ pay ++ ']' :: s2) := by simp
      have hB : (c :: u1) ++ offsetLit ++ pay' ++ ']' :: s2
          = c :: (u1 ++ offsetLit ++ pay' ++ ']' :: s2) := by simp
      have hAc : c :: (u1 ++ offsetLit ++ pay ++ ']' :: s2)
          = ((c :: u1) ++ offsetLit) ++ (pay ++ ']' :: s2) := by simp
      have hBc : c :: (u1 ++ offsetLit ++ pay' ++ ']' :: s2)
          = ((c :: u1) ++ offsetLit) ++ (pay' ++ ']' :: s2) := by simp
      have hw : (8 : Nat) ≤ ((c :: u1) ++ offsetLit).length := by
        simp [offsetLit]
      rw [hA] at hold
      rw [hB]
      rw [matchStack_eq] at hold
      rw [matchStack_eq]
      cases htoB : tryOffset (c :: (u1 ++ offsetLit ++ pay' ++ ']' :: s2)) with
      | some resB => rfl
      | none =>
        have htoA : tryOffset (c :: (u1 ++ offsetLit ++ pay ++ ']' :: s2)) = none := by
          cases htoA2 : tryOffset (c :: (u1 ++ offsetLit ++ pay ++ ']' :: s2)) with
          | none => rfl
          | some resA =>
            exfalso
            have hsomeA : (tryOffset (((c :: u1) ++ offsetLit) ++ (pay ++ ']' :: s2))).isSome := by
              rw [← hAc, htoA2]
              rfl
            have hsomeB := tryOffset_corr ((c :: u1) ++ offsetLit) pay pay' s2 hw hb hn hsomeA
            rw [← hBc, htoB] at hsomeB
            simp at hsomeB
        rw [htoA] at hold
        dsimp only at hold ⊢
        by_cases hc : c = '['
        · rw [if_pos hc] at hold ⊢
          subst hc
          by_cases hbr : ']' ∈ u1
          · obtain ⟨m, u2, hdec, hnm⟩ := mem_first_split ']' u1 hbr
            have htA : u1 ++ offsetLit ++ pay ++ ']' :: s2
                = m ++ ']' :: (u2 ++ offsetLit ++ pay ++ ']' :: s2) := by
              rw [hdec]; simp
            have htB : u1 ++ offsetLit ++ pay' ++ ']' :: s2
                = m ++ ']' :: (u2 ++ offsetLit ++ pay' ++ ']' :: s2) := by
              rw [hdec]; simp
            rw [htA, splitBracket_complete m (u2 ++ offsetLit ++ pay ++ ']' :: s2) hnm] at hold
            rw [htB, splitBracket_complete m (u2 ++ offsetLit ++ pay' ++ ']' :: s2) hnm]
            dsimp only at hold ⊢
            rw [wrapMS_isSome] at hold
            rw [wrapMS_isSome]
            have hlen2 : u2.length ≤ n := by
              have hu1 : u1.length = m.length + 1 + u2.length := by
                rw [hdec]
                simp only [List.length_append, List.length_cons]
                omega
              simp only [List.length_cons] at hlen
              omega
            exact ih u2 pay pay' s2 hlen2 hbp hnp hb hn hold
          · have hnall : ']' ∉ u1 ++ offsetLit ++ pay := by
              simp only [List.mem_append, not_or]
              exact ⟨⟨hbr, offsetLit_no_bracket⟩, hbp⟩
            have hnall' : ']' ∉ u1 ++ offsetLit ++ pay' := by
              simp only [List.mem_append, not_or]
              exact ⟨⟨hbr, offsetLit_no_bracket⟩, hb⟩
            have htA : u1 ++ offsetLit ++ pay ++ ']' :: s2
                = (u1 ++ offsetLit ++ pay) ++ ']' :: s2 := by simp
            have htB : u1 ++ offsetLit ++ pay' ++ ']' :: s2
                = (u1 ++ offsetLit ++ pay') ++ ']' :: s2 := by simp
            rw [htA, splitBracket_complete (u1 ++ offsetLit ++ pay) s2 hnall] at hold
            rw [htB, splitBracket_complete (u1 ++ offsetLit ++ pay') s2 hnall']
            dsimp only at hold ⊢
            rw [wrapMS_isSome] at hold
            rw [wrapMS_isSome]
            exact hold
        · rw [if_neg hc] at hold
          simp at hold

theorem ms_aux : ∀ n : Nat, ∀ x pay pay' s2 : Str, x.length ≤ n →
    ']' ∉ pay' → '\n' ∉ pay' →
    matchStack (x ++ pay ++ ']' :: s2) = some (x, pay, ']' :: s2) →
    matchStack (x ++ pay' ++ ']' :: s2) = some (x, pay', ']' :: s2) := by
  intro n
  induction n with
  | zero =>
    intro x pay pay' s2 hlen hb hn hmain
    exfalso
    obtain ⟨⟨t0, _, hxform⟩, _, _, _, _⟩ := matchStack_sound _ _ _ _ hmain
    have hx : x = [] := by
      cases x with
      | nil => rfl
      | cons a b => simp at hlen
    subst hx
    have hO := congrArg List.length hxform
    simp only [List.length_nil, List.length_append, offsetLit_len] at hO
    omega
  | succ n ih =>
    intro x pay pay' s2 hlen hb hn hmain
    obtain ⟨⟨t0, htags, hxform⟩, _, hbp, hnp, _, _⟩ := matchStack_sound _ _ _ _ hmain
    rw [matchStack_eq] at hmain
    cases hto : tryOffset (x ++ pay ++ ']' :: s2) with
    | some res =>
      obtain ⟨x0, p0, r0⟩ := res
      rw [hto] at hmain
      simp only [Option.some.injEq, Prod.mk.injEq] at hmain
      obtain ⟨hx0, hp0, hr0⟩ := hmain
      subst hx0; subst hp0; subst hr0
      obtain ⟨hxoff, _, _, _, _⟩ := tryOffset_sound _ _ _ _ hto
      subst hxoff
      rw [matchStack_eq]
      rw [tryOffset_complete pay' s2 hb hn]
    | none =>
      cases x with
      | nil =>
        exfalso
        have hO := congrArg List.length hxform
        simp only [List.length_nil, List.length_append, offsetLit_len] at hO
        omega
      | cons c x1 =>
        have hA : (c :: x1) ++ pay ++ ']' :: s2 = c :: (x1 ++ pay ++ ']' :: s2) := by simp
        have hB : (c :: x1) ++ pay' ++ ']' :: s2 = c :: (x1 ++ pay' ++ ']' :: s2) := by simp
        rw [hA] at hmain hto
        rw [hto] at hmain
        dsimp only at hmain
        by_cases hc : c = '['
        · rw [if_pos hc] at hmain
          subst hc
          cases hsb : splitBracket (x1 ++ pay ++ ']' :: s2) with
          | none => rw [hsb] at hmain; simp at hmain
          | some pr =>
            obtain ⟨m, restA⟩ := pr
            rw [hsb] at hmain
            dsimp only at hmain
            cases hms : matchStack restA with
            | none => rw [hms] at hmain; simp at hmain
            | some res2 =>
              obtain ⟨c2, p2, r2⟩ := res2
              rw [hms] at hmain
              simp only [Option.some.injEq, Prod.mk.injEq] at hmain
              obtain ⟨hx, hp, hr⟩ := hmain
              subst hp; subst hr
              have hx1 : x1 = m ++ ']' :: c2 := by
                have h2 : '[' :: (m ++ ']' :: c2) = '[' :: x1 := by simpa using hx
                injection h2 with _ h3
                exact h3.symm
              obtain ⟨hrestEq, hnm⟩ := splitBracket_sound _ _ _ hsb
              obtain ⟨⟨t2, htags2, hc2form⟩, hrsplit, _, _, _, _⟩ :=
                matchStack_sound _ _ _ _ hms
              rw [hrsplit] at hms
              have hlen2 : c2.length ≤ n := by
                have hxl : x1.length = m.length + 1 + c2.length := by
                  rw [hx1]
                  simp only [List.length_append, List.length_cons]
                  omega
                simp only [List.length_cons] at hlen
                omega
              have hmsIH := ih c2 p2 pay' s2 hlen2 hb hn hms
              have h8 : 8 ≤ ('[' :: x1).length := by
                have hcl := congrArg List.length hc2form
                simp only [List.length_append, offsetLit_len] at hcl
                have hxl : x1.length = m.length + 1 + c2.length := by
                  rw [hx1]
                  simp only [List.length_append, List.length_cons]
                  omega
                simp only [List.length_cons]
                omega
              have hAc : '[' :: (x1 ++ p2 ++ ']' :: s2)
                  = ('[' :: x1) ++ (p2 ++ ']' :: s2) := by simp
              have hBc : '[' :: (x1 ++ pay' ++ ']' :: s2)
                  = ('[' :: x1) ++ (pay' ++ ']' :: s2) := by simp
              have htoB : tryOffset ('[' :: (x1 ++ pay' ++ ']' :: s2)) = none := by
                cases htoB2 : tryOffset ('[' :: (x1 ++ pay' ++ ']' :: s2)) with
                | none => rfl
                | some resB =>
                  exfalso
                  have hsB : (tryOffset (('[' :: x1) ++ (pay' ++ ']' :: s2))).isSome := by
                    rw [← hBc, htoB2]
                    rfl
                  have hsA := tryOffset_corr ('[' :: x1) pay' p2 s2 h8 hbp hnp hsB
                  rw [← hAc, hto] at hsA
                  simp at hsA
              rw [hB, matchStack_eq, htoB]
              dsimp only
              rw [if_pos rfl]
              have hsbB : splitBracket (x1 ++ pay' ++ ']' :: s2)
                  = some (m, c2 ++ pay' ++ ']' :: s2) := by
                have hform2 : x1 ++ pay' ++ ']' :: s2
                    = m ++ ']' :: (c2 ++ pay' ++ ']' :: s2) := by
                  rw [hx1]; simp
                rw [hform2]
                exact splitBracket_complete m (c2 ++ pay' ++ ']' :: s2) hnm
              rw [hsbB]
              dsimp only
              rw [hmsIH]
              simp [hx1]
        · rw [if_neg hc] at hmain
          simp at hmain

theorem sf_aux : ∀ n : Nat, ∀ s pre pay pay' suff : Str, s.length ≤ n →
    ']' ∉ pay' → '\n' ∉ pay' →
    searchFrom s = some (pre, pay, suff) →
    searchFrom (pre ++ pay' ++ suff) = some (pre, pay', suff) := by
  intro n
  induction n with
  | zero =>
    intro s pre pay pay' suff hlen hb hn h
    have hs : s = [] := by
      cases s with
      | nil => rfl
      | cons a b => simp at hlen
    subst hs
    rw [searchFrom_eq] at h
    rw [show matchStack [] = none from rfl] at h
    simp [splitAtNl] at h
  | succ n ih =>
    intro s pre pay pay' suff hlen hb hn h
    obtain ⟨hsplit, ⟨a, t0, ha, htags, hpreform⟩, hbp, hnp, s2, rfl⟩ :=
      searchFrom_sound_aux s.length s pre pay suff (Nat.le_refl _) h
    rw [searchFrom_eq] at h
    cases hms : matchStack s with
    | some res =>
      rw [hms] at h
      obtain ⟨x0, p0, r0⟩ := res
      simp only [Option.some.injEq, Prod.mk.injEq] at h
      obtain ⟨hx0, hp0, hr0⟩ := h
      subst hx0; subst hp0; subst hr0
      obtain ⟨_, hsEq, _, _, _, _⟩ := matchStack_sound _ _ _ _ hms
      rw [hsEq] at hms
      have hmsB := ms_aux x0.length x0 p0 pay' s2 (Nat.le_refl _) hb hn hms
      rw [searchFrom_eq, hmsB]
    | none =>
      rw [hms] at h
      dsimp only at h
      cases hnl : splitAtNl s with
      | none => rw [hnl] at h; simp at h
      | some pr =>
        obtain ⟨l, rest⟩ := pr
        rw [hnl] at h
        dsimp only at h
        cases hsf : searchFrom rest with
        | none => rw [hsf] at h; simp at h
        | some res2 =>
          obtain ⟨c2, p2, r2⟩ := res2
          rw [hsf] at h
          simp only [Option.some.injEq, Prod.mk.injEq] at h
          obtain ⟨hpre, hp2, hr2⟩ := h
          subst hp2; subst hr2
          have hN : pre ++ pay' ++ ']' :: s2 = l ++ '\n' :: (c2 ++ pay' ++ ']' :: s2) := by
            rw [← hpre]
            simp
          have hpre0 : pre = (a ++ t0) ++ offsetLit := by rw [hpreform]
          have hmsN : matchStack (pre ++ pay' ++ ']' :: s2) = none := by
            cases hmsN2 : matchStack (pre ++ pay' ++ ']' :: s2) with
            | none => rfl
            | some resN =>
              exfalso
              have hsN : (matchStack ((a ++ t0) ++ offsetLit ++ pay' ++ ']' :: s2)).isSome := by
                have heq2 : (a ++ t0) ++ offsetLit ++ pay' ++ ']' :: s2
                    = pre ++ pay' ++ ']' :: s2 := by rw [hpre0]
                rw [heq2, hmsN2]
                rfl
              have hsOld := msgen_aux (a ++ t0).length (a ++ t0) pay' p2 s2 (Nat.le_refl _)
                hb hn hbp hnp hsN
              have heq3 : (a ++ t0) ++ offsetLit ++ p2 ++ ']' :: s2 = s := by
                rw [hsplit, hpre0]
              rw [heq3, hms] at hsOld
              simp at hsOld
          obtain ⟨hsl, hnll⟩ := splitAtNl_sound s l rest hnl
          have hnlN : splitAtNl (pre ++ pay' ++ ']' :: s2)
              = some (l, c2 ++ pay' ++ ']' :: s2) := by
            rw [hN]
            exact splitAtNl_complete l _ hnll
          have hltn : rest.length < s.length := splitAtNl_len s l rest hnl
          have hrec := ih rest c2 p2 pay' (']' :: s2) (by omega) hb hn hsf
          rw [searchFrom_eq, hmsN]
          dsimp only
          rw [hnlN]
          dsimp only
          rw [hrec, ← hpre]

theorem digitChar_ne (d : Nat) : digitChar d ≠ ']' ∧ digitChar d ≠ '\n' := by
  unfold digitChar
  split <;> exact ⟨by decide, by decide⟩

theorem natDigitsF_chars : ∀ fuel n : Nat, ∀ c, c ∈ natDigitsF fuel n →
    c ≠ ']' ∧ c ≠ '\n' := by
  intro fuel
  induction fuel with
  | zero => intro n c h; simp [natDigitsF] at h
  | succ f ih =>
    intro n c h
    simp only [natDigitsF] at h
    by_cases hn : n < 10
    · rw [if_pos hn] at h
      simp only [List.mem_singleton] at h
      subst h
      exact digitChar_ne n
    · rw [if_neg hn] at h
      rcases List.mem_append.mp h with h1 | h2
      · exact ih (n / 10) c h1
      · simp only [List.mem_singleton] at h2
        subst h2
        exact digitChar_ne (n % 10)

theorem intStr_chars (i : Int) : ']' ∉ intStr i ∧ '\n' ∉ intStr i := by
  cases i with
  | ofNat n =>
    constructor <;> intro h <;>
      [exact (natDigitsF_chars (n + 1) n ']' h).1 rfl;
       exact (natDigitsF_chars (n + 1) n '\n' h).2 rfl]
  | negSucc n =>
    constructor <;> intro h <;> rcases List.mem_cons.mp h with h1 | h2
    · exact absurd h1 (by decide)
    · exact (natDigitsF_chars (n + 2) (n + 1) ']' h2).1 rfl
    · exact absurd h1 (by decide)
    · exact (natDigitsF_chars (n + 2) (n + 1) '\n' h2).2 rfl

/-- C2: the offset rewrite is an overwrite whose final state does not
depend on earlier rewrites: for every content and integer offsets A and
B, update_lrc_offset (update_lrc_offset content A) B equals
update_lrc_offset content B; with A equal to B this gives idempotence
under repeated application with the same offset. -/
theorem update_lrc_offset_overwrite (content : Str) (A B : Int) :
    update_lrc_offset (update_lrc_offset content A) B = update_lrc_offset content B := by
  obtain ⟨hAb, hAn⟩ := intStr_chars A
  cases hsf : searchFrom content with
  | none =>
    have h1 : update_lrc_offset content A = offsetLit ++ intStr A ++ ']' :: '\n' :: content := by
      unfold update_lrc_offset
      rw [hsf]
    have h1B : update_lrc_offset content B = offsetLit ++ intStr B ++ ']' :: '\n' :: content := by
      unfold update_lrc_offset
      rw [hsf]
    have hto : tryOffset (offsetLit ++ intStr A ++ ']' :: '\n' :: content)
        = some (offsetLit, intStr A, ']' :: '\n' :: content) :=
      tryOffset_complete (intStr A) ('\n' :: content) hAb hAn
    have hsf2 : searchFrom (offsetLit ++ intStr A ++ ']' :: '\n' :: content)
        = some (offsetLit, intStr A, ']' :: '\n' :: content) := by
      rw [searchFrom_eq, matchStack_eq, hto]
    rw [h1, h1B]
    unfold update_lrc_offset
    rw [hsf2]
  | some res =>
    obtain ⟨pre, pay, suf⟩ := res
    have h1 : update_lrc_offset content A = pre ++ intStr A ++ suf := by
      unfold update_lrc_offset
      rw [hsf]
    have h1B : update_lrc_offset content B = pre ++ intStr B ++ suf := by
      unfold update_lrc_offset
      rw [hsf]
    have hsf2 : searchFrom (pre ++ intStr A ++ suf) = some (pre, intStr A, suf) :=
      sf_aux content.length content pre pay (intStr A) suf (Nat.le_refl _) hAb hAn hsf
    rw [h1, h1B]
    unfold update_lrc_offset
    rw [hsf2]

theorem searchFrom_none_iff (c : Str) : searchFrom c = none ↔ ¬ AnchoredOffset c := by
  constructor
  · intro hnone hanch
    obtain ⟨a, t0, pay, rest, htags, hdec, ha, hb, hn⟩ := hanch
    obtain ⟨res, hres⟩ := matchStack_complete t0 pay rest htags hb hn
    have hz : c = a ++ (t0 ++ offsetLit ++ pay ++ ']' :: rest) := by
      rw [hdec]; simp
    obtain ⟨res2, hres2⟩ := searchFrom_complete_aux a.length a
      (t0 ++ offsetLit ++ pay ++ ']' :: rest) (Nat.le_refl _) ha ⟨res, hres⟩
    rw [← hz] at hres2
    rw [hnone] at hres2
    simp at hres2
  · intro hno
    cases h : searchFrom c with
    | none => rfl
    | some res =>
      exfalso
      apply hno
      obtain ⟨pre, pay, suff⟩ := res
      obtain ⟨hsplit, ⟨a, t0, ha, htags, hpreform⟩, hb, hn, s2, rfl⟩ :=
        searchFrom_sound_aux c.length c pre pay suff (Nat.le_refl _) h
      refine ⟨a, t0, pay, s2, htags, ?_, ha, hb, hn⟩
      rw [hsplit, hpreform]

/-- C4: prepend branch of the offset rewriter.  For every content in
which no line-anchored run of bracketed tags immediately followed by a
same-line-closed offset tag occurs (AnchoredOffset), including content
with no tags, content with only mid-line offset text, and content whose
line starts with doubled brackets, update_lrc_offset produces exactly
the new tag line, a newline, and the original content unmodified. -/
theorem update_lrc_offset_prepend (content : Str) (N : Int)
    (h : ¬ AnchoredOffset content) :
    update_lrc_offset content N = offsetLit ++ intStr N ++ ']' :: '\n' :: content := by
  unfold update_lrc_offset
  rw [(searchFrom_none_iff content).mpr h]

/-- Witness for C4 at the two doctest inputs: a mid-line offset tag and
a doubled-bracket line both fall through to the prepend branch. -/
theorem update_lrc_offset_prepend_witness :
    (¬ AnchoredOffset ("Some [offset:200] lrc".toList) ∧
      update_lrc_offset ("Some [offset:200] lrc".toList) 100
        = "[offset:100]\nSome [offset:200] lrc".toList) ∧
    (¬ AnchoredOffset ("[[offset:200]] lrc".toList) ∧
      update_lrc_offset ("[[offset:200]] lrc".toList) 100
        = "[offset:100]\n[[offset:200]] lrc".toList) := by
  have h1 : ¬ AnchoredOffset ("Some [offset:200] lrc".toList) :=
    (searchFrom_none_iff _).mp (by decide)
  have h2 : ¬ AnchoredOffset ("[[offset:200]] lrc".toList) :=
    (searchFrom_none_iff _).mp (by decide)
  refine ⟨⟨h1, ?_⟩, ⟨h2, ?_⟩⟩
  · rw [update_lrc_offset_prepend _ 100 h1]
    decide
  · rw [update_lrc_offset_prepend _ 100 h2]
    decide

/-- C3: the claim asserts decode is total, and the specification agrees
(step 3 falls back to utf-8), but the source evaluates the log-message
concatenation of a str with the retry detection result before that
fallback, which raises TypeError when the retry detector returns None.
This theorem evaluates the embedded decoder at a failing input: 41
bytes with a detector that finds no encoding for the full input or the
bounded retry slice. -/
theorem decode_by_charset_typeerror_on_undetected_long_input :
    decode_by_charset (fun _ => none) (fun _ _ => []) (List.replicate 41 0)
      = Except.error PyExn.typeError := by
  rfl

theorem decode_by_charset_empty (detect : List Nat → Option Str) (dec : Str → List Nat → Str)
    (hdec : ∀ e, dec e [] = []) :
    decode_by_charset detect dec [] = Except.ok [] := by
  unfold decode_by_charset
  dsimp only
  rw [if_neg (by simp [DETECT_CHARSET_GUESS_MIN_LEN])]
  cases hdet : detect [] with
  | none => simp [hdec]
  | some e =>
    by_cases he : e = []
    · simp [he, hdec]
    · simp [he, hdec]

theorem load_from_uri_none_aux (detect : List Nat → Option Str) (dec : Str → List Nat → Str)
    (fs : FS) (uri : Str) (hdec : ∀ e, dec e [] = [])
    (hscheme : (parseUrl uri).scheme = "none".toList) :
    load_from_uri detect dec fs uri = Except.ok (some []) := by
  unfold load_from_uri
  dsimp only
  rw [hscheme]
  rw [if_neg (by decide), if_pos rfl]
  dsimp only
  rw [decode_by_charset_empty detect dec hdec]
  rfl

/-- C7: loading a URI whose parsed scheme is none always yields the
empty text and never consults the filesystem: the result is the same
for every backing filesystem value. -/
theorem load_from_uri_none_scheme (detect : List Nat → Option Str)
    (dec : Str → List Nat → Str) (fs : FS) (uri : Str)
    (hdec : ∀ e, dec e [] = [])
    (hscheme : (parseUrl uri).scheme = "none".toList) :
    load_from_uri detect dec fs uri = Except.ok (some []) ∧
    ∀ fs2 : FS, load_from_uri detect dec fs2 uri = load_from_uri detect dec fs uri := by
  constructor
  · exact load_from_uri_none_aux detect dec fs uri hdec hscheme
  · intro fs2
    rw [load_from_uri_none_aux detect dec fs uri hdec hscheme,
      load_from_uri_none_aux detect dec fs2 uri hdec hscheme]

/-- Witness for C7 at the concrete URI none: with two distinct
filesystems. -/
theorem load_from_uri_none_scheme_witness :
    load_from_uri (fun _ => none) (fun _ _ => [])
      ⟨fun _ => none, fun _ => false, fun _ => false, fun _ => false⟩ "none:".toList
      = Except.ok (some []) ∧
    load_from_uri (fun _ => none) (fun _ _ => [])
      ⟨fun _ => some [1, 2, 3], fun _ => true, fun _ => true, fun _ => true⟩ "none:".toList
      = Except.ok (some []) := by
  have h1 := load_from_uri_none_scheme (fun _ => none) (fun _ _ => [])
    ⟨fun _ => none, fun _ => false, fun _ => false, fun _ => false⟩ "none:".toList
    (fun _ => rfl) (by decide)
  refine ⟨h1.1, ?_⟩
  rw [h1.2 ⟨fun _ => some [1, 2, 3], fun _ => true, fun _ => true, fun _ => true⟩]
  exact h1.1

theorem stripNul_no_nul (s : Str) : nulChar ∉ stripNul s := by
  intro h
  have := List.of_mem_filter h
  simp at this

/-- C8: whenever load_from_uri returns a text value, that text contains
no NUL character: every decoded content is piped through the NUL
stripper before being returned. -/
theorem load_from_uri_nul_free (detect : List Nat → Option Str)
    (dec : Str → List Nat → Str) (fs : FS) (uri : Str) (t : Str)
    (h : load_from_uri detect dec fs uri = Except.ok (some t)) : nulChar ∉ t := by
  unfold load_from_uri at h
  dsimp only at h
  by_cases h1 : (parseUrl uri).scheme = "file".toList
  · rw [if_pos h1] at h
    cases hlf : load_from_file fs (parseUrl uri) with
    | none => rw [hlf] at h; simp at h
    | some bs =>
      rw [hlf] at h
      dsimp only at h
      cases hdc : decode_by_charset detect dec bs with
      | error e => rw [hdc] at h; simp at h
      | ok t2 =>
        rw [hdc] at h
        simp only [Except.ok.injEq, Option.some.injEq] at h
        rw [← h]
        exact stripNul_no_nul t2
  · rw [if_neg h1] at h
    by_cases h2 : (parseUrl uri).scheme = "none".toList
    · rw [if_pos h2] at h
      dsimp only at h
      cases hdc : decode_by_charset detect dec [] with
      | error e => rw [hdc] at h; simp at h
      | ok t2 =>
        rw [hdc] at h
        simp only [Except.ok.injEq, Option.some.injEq] at h
        rw [← h]
        exact stripNul_no_nul t2
    · rw [if_neg h2] at h
      simp at h

/-- Witness for C8: loading a file whose bytes decode to text with an
embedded NUL yields the text with the NUL stripped. -/
theorem load_from_uri_nul_free_witness :
    load_from_uri (fun _ => some "utf-8".toList)
      (fun _ bs => bs.map (fun b => Char.ofNat b))
      ⟨fun p => if p = "/a.lrc".toList then some [65, 0, 66] else none,
        fun _ => false, fun _ => false, fun _ => false⟩
      "file:///a.lrc".toList
      = Except.ok (some ['A', 'B']) ∧
    nulChar ∉ (['A', 'B'] : Str) := by
  refine ⟨rfl, ?_⟩
  exact load_from_uri_nul_free (fun _ => some "utf-8".toList)
    (fun _ bs => bs.map (fun b => Char.ofNat b))
    ⟨fun p => if p = "/a.lrc".toList then some [65, 0, 66] else none,
      fun _ => false, fun _ => false, fun _ => false⟩
    "file:///a.lrc".toList ['A', 'B'] rfl

theorem parseUrl_none_of_starts (uri : Str) (h : strStarts "none:".toList uri = true) :
    (parseUrl uri).scheme = "none".toList := by
  obtain ⟨rest, rfl⟩ := (strStarts_iff _ _).mp h
  rfl

theorem is_valid_uri_none_starts (uri : Str) (h : strStarts "none:".toList uri = true) :
    is_valid_uri uri = true := by
  unfold is_valid_uri SUPPORTED_SCHEMES
  simp only [List.any_cons, List.any_nil, Bool.or_eq_true, Bool.or_false]
  right
  have he : ("none".toList ++ [':'] : Str) = "none:".toList := rfl
  rw [he]
  exact h

/-- C10: SetOffset on a URI of the none scheme is a silent no-op: the
scheme check passes, the none load handler yields empty content, the
rewrite happens only in memory, and the none save handler reports
success without writing, so no exception is raised and the filesystem
is returned unchanged. -/
theorem SetOffset_none_noop (detect : List Nat → Option Str) (dec : Str → List Nat → Str)
    (fs : FS) (uri : Str) (offset : Int)
    (hdec : ∀ e, dec e [] = []) (h : strStarts "none:".toList uri = true) :
    SetOffset detect dec fs uri offset = (Except.ok (), fs) := by
  have hscheme := parseUrl_none_of_starts uri h
  have hvalid := is_valid_uri_none_starts uri h
  unfold SetOffset
  rw [if_neg (by rw [hvalid]; simp)]
  rw [load_from_uri_none_aux detect dec fs uri hdec hscheme]
  dsimp only
  have hsave : save_to_uri uri (utf8Enc (update_lrc_offset [] offset)) true fs
      = Except.ok (true, fs) := by
    unfold save_to_uri
    dsimp only
    rw [hscheme]
    rw [if_neg (by decide), if_pos rfl]
  rw [hsave]
  rfl

/-- Witness for C10 at the URI none: with offset 7 over a concrete
filesystem. -/
theorem SetOffset_none_noop_witness :
    SetOffset (fun _ => none) (fun _ _ => [])
      ⟨fun _ => none, fun _ => false, fun _ => false, fun _ => false⟩ "none:".toList 7
      = (Except.ok (),
        ⟨fun _ => none, fun _ => false, fun _ => false, fun _ => false⟩) :=
  SetOffset_none_noop (fun _ => none) (fun _ _ => [])
    ⟨fun _ => none, fun _ => false, fun _ => false, fun _ => false⟩ "none:".toList 7
    (fun _ => rfl) (by decide)

theorem decode_error_cases (detect : List Nat → Option Str) (dec : Str → List Nat → Str)
    (bs : List Nat) (e : PyExn)
    (h : decode_by_charset detect dec bs = Except.error e) : e = PyExn.typeError := by
  unfold decode_by_charset at h
  dsimp only at h
  by_cases hc : (detect bs = none ∨ detect bs = some []) ∧
      bs.length > DETECT_CHARSET_GUESS_MIN_LEN
  · rw [if_pos hc] at h
    cases hdet : detect (bs.take (min (max DETECT_CHARSET_GUESS_MIN_LEN (bs.length / 2))
        DETECT_CHARSET_GUESS_MAX_LEN)) with
    | none =>
      rw [hdet] at h
      dsimp only at h
      simp only [Except.error.injEq] at h
      exact h.symm
    | some e2 =>
      rw [hdet] at h
      dsimp only at h
      simp at h
  · rw [if_neg hc] at h
    dsimp only at h
    simp at h

theorem load_error_cases (detect : List Nat → Option Str) (dec : Str → List Nat → Str)
    (fs : FS) (uri : Str) (e : PyExn)
    (h : load_from_uri detect dec fs uri = Except.error e) :
    e = PyExn.keyError ∨ e = PyExn.typeError := by
  unfold load_from_uri at h
  dsimp only at h
  by_cases h1 : (parseUrl uri).scheme = "file".toList
  · rw [if_pos h1] at h
    cases hlf : load_from_file fs (parseUrl uri) with
    | none => rw [hlf] at h; simp at h
    | some bs =>
      rw [hlf] at h
      dsimp only at h
      cases hdc : decode_by_charset detect dec bs with
      | error e2 =>
        rw [hdc] at h
        simp only [Except.error.injEq] at h
        right
        rw [← h]
        exact decode_error_cases detect dec bs e2 hdc
      | ok t2 => rw [hdc] at h; simp at h
  · rw [if_neg h1] at h
    by_cases h2 : (parseUrl uri).scheme = "none".toList
    · rw [if_pos h2] at h
      dsimp only at h
      cases hdc : decode_by_charset detect dec [] with
      | error e2 =>
        rw [hdc] at h
        simp only [Except.error.injEq] at h
        right
        rw [← h]
        exact decode_error_cases detect dec [] e2 hdc
      | ok t2 => rw [hdc] at h; simp at h
    · rw [if_neg h2] at h
      simp only [Except.error.injEq] at h
      left
      exact h.symm

theorem save_error_cases (uri : Str) (content : List Nat) (create : Bool) (fs : FS)
    (e : PyExn) (h : save_to_uri uri content create fs = Except.error e) :
    e = PyExn.keyError := by
  unfold save_to_uri at h
  dsimp only at h
  by_cases h1 : (parseUrl uri).scheme = "file".toList
  · rw [if_pos h1] at h; simp at h
  · rw [if_neg h1] at h
    by_cases h2 : (parseUrl uri).scheme = "none".toList
    · rw [if_pos h2] at h; simp at h
    · rw [if_neg h2] at h
      simp only [Except.error.injEq] at h
      exact h.symm

/-- C5: SetOffset error protocol.  InvalidUri is raised exactly when
the URI fails the supported-scheme membership check (the check runs
before any load, so the outcome does not depend on the filesystem);
otherwise CannotLoad exactly when loading returns no content; otherwise
CannotSave exactly when re-saving the rewritten content to the same URI
with create true reports failure; otherwise the call returns normally
with the filesystem produced by the save. -/
theorem SetOffset_protocol (detect : List Nat → Option Str) (dec : Str → List Nat → Str)
    (fs : FS) (uri : Str) (offset : Int) :
    ((SetOffset detect dec fs uri offset).1 = Except.error PyExn.invalidUri ↔
      is_valid_uri uri = false) ∧
    ((SetOffset detect dec fs uri offset).1 = Except.error PyExn.cannotLoad ↔
      is_valid_uri uri = true ∧ load_from_uri detect dec fs uri = Except.ok none) ∧
    ((SetOffset detect dec fs uri offset).1 = Except.error PyExn.cannotSave ↔
      is_valid_uri uri = true ∧ ∃ c fs2,
        load_from_uri detect dec fs uri = Except.ok (some c) ∧
        save_to_uri uri (utf8Enc (update_lrc_offset c offset)) true fs
          = Except.ok (false, fs2)) ∧
    (∀ c fs2, is_valid_uri uri = true →
      load_from_uri detect dec fs uri = Except.ok (some c) →
      save_to_uri uri (utf8Enc (update_lrc_offset c offset)) true fs
        = Except.ok (true, fs2) →
      SetOffset detect dec fs uri offset = (Except.ok (), fs2)) := by
  by_cases hv : is_valid_uri uri = true
  · have hSOpre : SetOffset detect dec fs uri offset =
        (match load_from_uri detect dec fs uri with
         | Except.error e => (Except.error e, fs)
         | Except.ok none => (Except.error PyExn.cannotLoad, fs)
         | Except.ok (some c) =>
           match save_to_uri uri (utf8Enc (update_lrc_offset c offset)) true fs with
           | Except.error e => (Except.error e, fs)
           | Except.ok (good, fs') =>
             if good then (Except.ok (), fs') else (Except.error PyExn.cannotSave, fs')) := by
      unfold SetOffset
      rw [if_neg (by rw [hv]; simp)]
    cases hl : load_from_uri detect dec fs uri with
    | error e =>
      have he := load_error_cases detect dec fs uri e hl
      have hSO : SetOffset detect dec fs uri offset = (Except.error e, fs) := by
        rw [hSOpre, hl]
      refine ⟨?_, ?_, ?_, ?_⟩
      · rw [hSO]
        constructor
        · intro hh
          simp only [Except.error.injEq] at hh
          rcases he with rfl | rfl <;> exact absurd hh (by decide)
        · intro hh
          rw [hv] at hh
          exact absurd hh (by decide)
      · rw [hSO]
        constructor
        · intro hh
          simp only [Except.error.injEq] at hh
          rcases he with rfl | rfl <;> exact absurd hh (by decide)
        · rintro ⟨-, hh⟩
          exact absurd hh (by simp)
      · rw [hSO]
        constructor
        · intro hh
          simp only [Except.error.injEq] at hh
          rcases he with rfl | rfl <;> exact absurd hh (by decide)
        · rintro ⟨-, c, fs2, hh, -⟩
          exact absurd hh (by simp)
      · intro c fs2 _ hload _
        exact absurd hload (by simp)
    | ok oc =>
      cases oc with
      | none =>
        have hSO : SetOffset detect dec fs uri offset = (Except.error PyExn.cannotLoad, fs) := by
          rw [hSOpre, hl]
        refine ⟨?_, ?_, ?_, ?_⟩
        · rw [hSO]
          constructor
          · intro hh
            simp only [Except.error.injEq] at hh
            exact absurd hh (by decide)
          · intro hh
            rw [hv] at hh
            exact absurd hh (by decide)
        · rw [hSO]
          exact ⟨fun _ => ⟨hv, rfl⟩, fun _ => rfl⟩
        · rw [hSO]
          constructor
          · intro hh
            simp only [Except.error.injEq] at hh
            exact absurd hh (by decide)
          · rintro ⟨-, c, fs2, hh, -⟩
            exact absurd hh (by simp)
        · intro c fs2 _ hload _
          exact absurd hload (by simp)
      | some c0 =>
        cases hs : save_to_uri uri (utf8Enc (update_lrc_offset c0 offset)) true fs with
        | error e =>
          have he := save_error_cases uri _ true fs e hs
          subst he
          have hSO : SetOffset detect dec fs uri offset = (Except.error PyExn.keyError, fs) := by
            rw [hSOpre, hl]
            dsimp only
            rw [hs]
          refine ⟨?_, ?_, ?_, ?_⟩
          · rw [hSO]
            constructor
            · intro hh
              simp only [Except.error.injEq] at hh
              exact absurd hh (by decide)
            · intro hh
              rw [hv] at hh
              exact absurd hh (by decide)
          · rw [hSO]
            constructor
            · intro hh
              simp only [Except.error.injEq] at hh
              exact absurd hh (by decide)
            · rintro ⟨-, hh⟩
              simp at hh
          · rw [hSO]
            constructor
            · intro hh
              simp only [Except.error.injEq] at hh
              exact absurd hh (by decide)
            · rintro ⟨-, c, fs2, hh, hh2⟩
              simp only [Except.ok.injEq, Option.some.injEq] at hh
              subst hh
              rw [hs] at hh2
              simp at hh2
          · intro c fs2 _ hload hsave
            simp only [Except.ok.injEq, Option.some.injEq] at hload
            subst hload
            rw [hs] at hsave
            simp at hsave
        | ok pr =>
          obtain ⟨good, fs2⟩ := pr
          cases good with
          | true =>
            have hSO : SetOffset detect dec fs uri offset = (Except.ok (), fs2) := by
              rw [hSOpre, hl]
              dsimp only
              rw [hs]
              rfl
            refine ⟨?_, ?_, ?_, ?_⟩
            · rw [hSO]
              constructor
              · intro hh
                simp at hh
              · intro hh
                rw [hv] at hh
                exact absurd hh (by decide)
            · rw [hSO]
              constructor
              · intro hh
                simp at hh
              · rintro ⟨-, hh⟩
                simp at hh
            · rw [hSO]
              constructor
              · intro hh
                simp at hh
              · rintro ⟨-, c, fs3, hh, hh2⟩
                simp only [Except.ok.injEq, Option.some.injEq] at hh
                subst hh
                rw [hs] at hh2
                simp at hh2
            · intro c fs3 _ hload hsave
              simp only [Except.ok.injEq, Option.some.injEq] at hload
              subst hload
              rw [hs] at hsave
              simp only [Except.ok.injEq, Prod.mk.injEq] at hsave
              rw [hSO, hsave.2]
          | false =>
            have hSO : SetOffset detect dec fs uri offset
                = (Except.error PyExn.cannotSave, fs2) := by
              rw [hSOpre, hl]
              dsimp only
              rw [hs]
              rfl
            refine ⟨?_, ?_, ?_, ?_⟩
            · rw [hSO]
              constructor
              · intro hh
                simp only [Except.error.injEq] at hh
                exact absurd hh (by decide)
              · intro hh
                rw [hv] at hh
                exact absurd hh (by decide)
            · rw [hSO]
              constructor
              · intro hh
                simp only [Except.error.injEq] at hh
                exact absurd hh (by decide)
              · rintro ⟨-, hh⟩
                simp at hh
            · rw [hSO]
              exact ⟨fun _ => ⟨hv, c0, fs2, rfl, hs⟩, fun _ => rfl⟩
            · intro c fs3 _ hload hsave
              simp only [Except.ok.injEq, Option.some.injEq] at hload
              subst hload
              rw [hs] at hsave
              simp at hsave
  · have hvf : is_valid_uri uri = false := by
      revert hv; cases is_valid_uri uri <;> simp
    have hSO : SetOffset detect dec fs uri offset = (Except.error PyExn.invalidUri, fs) := by
      unfold SetOffset
      rw [if_pos (by rw [hvf]; simp)]
    refine ⟨?_, ?_, ?_, ?_⟩
    · rw [hSO]
      exact ⟨fun _ => hvf, fun _ => rfl⟩
    · rw [hSO]
      constructor
      · intro hh
        simp only [Except.error.injEq] at hh
        exact absurd hh (by decide)
      · rintro ⟨hh, -⟩
        rw [hh] at hvf
        exact absurd hvf (by decide)
    · rw [hSO]
      constructor
      · intro hh
        simp only [Except.error.injEq] at hh
        exact absurd hh (by decide)
      · rintro ⟨hh, -⟩
        rw [hh] at hvf
        exact absurd hvf (by decide)
    · intro c fs2 hh _ _
      rw [hh] at hvf
      exact absurd hvf (by decide)

/-- Witness for C5: the invalid-scheme case raises InvalidUri, and the
none-scheme case loads, rewrites and saves normally, returning the
filesystem unchanged. -/
theorem SetOffset_protocol_witness :
    (SetOffset (fun _ => none) (fun _ _ => [])
      ⟨fun _ => none, fun _ => false, fun _ => false, fun _ => false⟩
      "http://x".toList 5).1 = Except.error PyExn.invalidUri ∧
    SetOffset (fun _ => none) (fun _ _ => [])
      ⟨fun _ => none, fun _ => false, fun _ => false, fun _ => false⟩
      "none:".toList 5
      = (Except.ok (), ⟨fun _ => none, fun _ => false, fun _ => false, fun _ => false⟩) := by
  constructor
  · exact (SetOffset_protocol (fun _ => none) (fun _ _ => [])
      ⟨fun _ => none, fun _ => false, fun _ => false, fun _ => false⟩
      "http://x".toList 5).1.mpr (by decide)
  · exact (SetOffset_protocol (fun _ => none) (fun _ _ => [])
      ⟨fun _ => none, fun _ => false, fun _ => false, fun _ => false⟩
      "none:".toList 5).2.2.2 [] _ (by decide) rfl rfl

/-- Counterexample to C6 as stated: the relative path beginning with a
tilde is not absolute, yet path2uri converts it to a file URI instead
of returning it unchanged, because tilde expansion runs first. -/
theorem path2uri_counterexample :
    pyIsAbs "~/x".toList = false ∧
    path2uri (fun u => if u = [] then some "/root".toList else none) "~/x".toList
      = "file:///root/x".toList := by
  constructor
  · decide
  · rfl

/-- C6 amended: path2uri first applies tilde (home directory)
expansion; the result is converted to a file URI exactly when the
expanded path is absolute, and is returned as the expanded path
otherwise; for paths that do not begin with a tilde the expansion is
the identity, recovering the original claim for them. -/
theorem path2uri_amended (home : Str → Option Str) (path : Str) :
    (pyIsAbs (expanduser home path) = true →
      path2uri home path = "file://".toList ++ quote (expanduser home path)) ∧
    (pyIsAbs (expanduser home path) = false →
      path2uri home path = expanduser home path) ∧
    (strStarts "~".toList path = false → expanduser home path = path) := by
  refine ⟨?_, ?_, ?_⟩
  · intro h
    unfold path2uri
    dsimp only
    rw [if_pos h]
  · intro h
    unfold path2uri
    dsimp only
    rw [if_neg (by rw [h]; simp)]
  · intro h
    unfold expanduser
    rw [if_neg (by rw [h]; simp)]

/-- Witness for the amended C6: an absolute path converts, a relative
path without a tilde is returned unchanged. -/
theorem path2uri_amended_witness :
    path2uri (fun _ => none) "/a/b".toList = "file:///a/b".toList ∧
    path2uri (fun _ => none) "rel/p".toList = "rel/p".toList := by
  constructor
  · have h := (path2uri_amended (fun _ => none) "/a/b".toList).1 (by decide)
    rw [h]
    decide
  · have h := (path2uri_amended (fun _ => none) "rel/p".toList).2.1 (by decide)
    have h2 := (path2uri_amended (fun _ => none) "rel/p".toList).2.2 (by decide)
    rw [h, h2]

/-- C9: SetLyricContent deletes the association entry for the metadata
before the save search and never restores it: on every non-raising
outcome the resulting store has no entry for the metadata, and when the
returned URI is empty (every pattern-derived candidate failed) no
change notification fires. -/
theorem SetLyricContent_deletes_first (home : Str → Option Str) (env : PatternEnv)
    (st : SvcState) (fs : FS) (md : Metadata) (content : List Nat)
    (r : Str) (st2 : SvcState) (fs2 : FS) (notified : Bool)
    (h : SetLyricContent home env st fs md content = Except.ok (r, st2, fs2, notified)) :
    st2.db md = none ∧ (r = [] → notified = false) := by
  unfold SetLyricContent at h
  dsimp only at h
  cases hsp : save_to_patterns home env md (rstripNulBytes content) fs with
  | error e => rw [hsp] at h; simp at h
  | ok pr =>
    obtain ⟨uri, fs3⟩ := pr
    rw [hsp] at h
    simp only [Except.ok.injEq, Prod.mk.injEq] at h
    obtain ⟨hr, hst, hfs, hnot⟩ := h
    subst hr
    constructor
    · rw [← hst]
      simp
    · intro hre
      rw [← hnot]
      simp [hre]

def c9Env : PatternEnv :=
  ⟨["F".toList], ["P".toList], fun _ _ => some "/d".toList, fun _ _ => some "f".toList⟩

def c9St : SvcState := ⟨fun _ => some "file:///old.lrc".toList, ⟨0⟩⟩

def c9Fs : FS := ⟨fun _ => none, fun d => d == "/d".toList, fun _ => false, fun _ => false⟩

def c9St2 : SvcState :=
  ⟨fun m => if m = (⟨0⟩ : Metadata) then none else some "file:///old.lrc".toList, ⟨0⟩⟩

/-- Witness for C9: one save candidate whose open fails; the call
returns the empty URI, yet the pre-existing association for the
metadata is gone and no notification fired. -/
theorem SetLyricContent_deletes_first_witness :
    SetLyricContent (fun _ => none) c9Env c9St c9Fs ⟨0⟩ [10, 0]
      = Except.ok ([], c9St2, c9Fs, false) ∧
    c9St2.db ⟨0⟩ = none ∧ (false : Bool) = false := by
  have h : SetLyricContent (fun _ => none) c9Env c9St c9Fs ⟨0⟩ [10, 0]
      = Except.ok ([], c9St2, c9Fs, false) := rfl
  have hc := SetLyricContent_deletes_first (fun _ => none) c9Env c9St c9Fs ⟨0⟩ [10, 0]
    [] c9St2 c9Fs false h
  exact ⟨h, hc.1, hc.2 rfl⟩

/-- C1: GetRawLyrics resolution postcondition.  A recorded URI that
loads wins immediately and the pattern configuration is irrelevant to
the result; when there is no usable record (none, or a record whose
load yields nothing), a pattern-found file that loads is returned; when
neither source yields content the not-found triple is returned.  In
particular a stale record whose file is gone never hides a file that
matches the naming patterns. -/
theorem GetRawLyrics_resolution (detect : List Nat → Option Str) (dec : Str → List Nat → Str)
    (home : Str → Option Str) (db : Metadata → Option Str) (env : PatternEnv)
    (fs : FS) (md : Metadata) :
    (∀ u c, find_lrc_from_db home db md = some u → u ≠ [] → u ≠ "none:".toList →
      load_from_uri detect dec fs u = Except.ok (some c) →
      ∀ env2 : PatternEnv, GetRawLyrics detect dec home db env2 fs md
        = Except.ok (true, u, c)) ∧
    ((find_lrc_from_db home db md = none ∨
      ∃ u, find_lrc_from_db home db md = some u ∧ u ≠ [] ∧ u ≠ "none:".toList ∧
        load_from_uri detect dec fs u = Except.ok none) →
     ∀ p c, find_lrc_by_pattern home env fs md = some p → p ≠ [] →
       load_from_uri detect dec fs p = Except.ok (some c) →
       GetRawLyrics detect dec home db env fs md = Except.ok (true, p, c)) ∧
    ((find_lrc_from_db home db md = none ∨
      ∃ u, find_lrc_from_db home db md = some u ∧ u ≠ [] ∧ u ≠ "none:".toList ∧
        load_from_uri detect dec fs u = Except.ok none) →
     (find_lrc_by_pattern home env fs md = none ∨
      ∃ p, find_lrc_by_pattern home env fs md = some p ∧ p ≠ [] ∧
        load_from_uri detect dec fs p = Except.ok none) →
     GetRawLyrics detect dec home db env fs md = Except.ok (false, [], [])) := by
  refine ⟨?_, ?_, ?_⟩
  · intro u c hdb hne hnn hload env2
    unfold GetRawLyrics
    dsimp only
    rw [hdb]
    dsimp only
    rw [if_neg hne, if_neg hnn, hload]
  · intro hdbmiss p c hpat hne hload
    unfold GetRawLyrics
    dsimp only
    rcases hdbmiss with hnone | ⟨u, hu, hune, hunn, huload⟩
    · rw [hnone]
      dsimp only
      rw [hpat]
      dsimp only
      rw [if_neg hne, hload]
    · rw [hu]
      dsimp only
      rw [if_neg hune, if_neg hunn, huload]
      dsimp only
      rw [hpat]
      dsimp only
      rw [if_neg hne, hload]
  · intro hdbmiss hpatmiss
    unfold GetRawLyrics
    dsimp only
    rcases hdbmiss with hnone | ⟨u, hu, hune, hunn, huload⟩
    · rw [hnone]
      dsimp only
      rcases hpatmiss with hpnone | ⟨p, hp, hpne, hpload⟩
      · rw [hpnone]
      · rw [hp]
        dsimp only
        rw [if_neg hpne, hpload]
    · rw [hu]
      dsimp only
      rw [if_neg hune, if_neg hunn, huload]
      dsimp only
      rcases hpatmiss with hpnone | ⟨p, hp, hpne, hpload⟩
      · rw [hpnone]
      · rw [hp]
        dsimp only
        rw [if_neg hpne, hpload]

def c1Db : Metadata → Option Str := fun _ => some "file:///stale.lrc".toList

def c1Fs : FS :=
  ⟨fun p => if p = "/lyr/a-t.lrc".toList then some [72, 105] else none,
    fun _ => false, fun _ => false, fun _ => false⟩

def c1Env : PatternEnv :=
  ⟨["F".toList], ["P".toList], fun _ _ => some "/lyr".toList, fun _ _ => some "a-t".toList⟩

def c1Detect : List Nat → Option Str := fun _ => some "utf-8".toList

def c1Dec : Str → List Nat → Str := fun _ bs => bs.map (fun b => Char.ofNat b)

/-- Witness for C1, the stale-record scenario: the association store
holds a URI whose file is gone, a file matching the patterns exists,
and GetRawLyrics returns the pattern-matched file. -/
theorem GetRawLyrics_resolution_witness :
    GetRawLyrics c1Detect c1Dec (fun _ => none) c1Db c1Env c1Fs ⟨0⟩
      = Except.ok (true, "file:///lyr/a-t.lrc".toList, "Hi".toList) :=
  (GetRawLyrics_resolution c1Detect c1Dec (fun _ => none) c1Db c1Env c1Fs ⟨0⟩).2.1
    (Or.inr ⟨"file:///stale.lrc".toList, rfl, by decide, by decide, rfl⟩)
    "file:///lyr/a-t.lrc".toList "Hi".toList rfl (by decide) rfl
